import Mathlib

/-!
Verification of the DSA-Helper heuristic classification and synthetic
trace-generation pipeline.

The development shallowly embeds the TypeScript sources:
  client code tracer      (client/src/lib/code-tracer.ts, class CodeTracer)
  pattern classifier      (algorithm-patterns module, detectAlgorithmType)
  server route helpers    (server/routes.ts: detectAlgorithmType,
                           generateSortingTraceSteps, generateSearchingTraceSteps,
                           generateQueueTraceSteps, generateGenericTraceSteps,
                           extractArrayFromCode, realPartition, ...)
  UI step cursor          (home page handleStep)

Source strings are converted to lists of characters once and all text
processing is done on lists of characters, so every definition is executable
by kernel reduction.  JavaScript regular expressions used by the sources are
embedded as deterministic scanners (the concrete patterns involved never
need backtracking, as argued in comments at each scanner).  Floating-point
confidence arithmetic is modelled over the rationals; the literals involved
(0.1, 0.2, 0.3, multiples by small integers) are exact in both models as far
as the stated claims are concerned.  Fabricated random metrics (executionTime,
memoryUsage) and wall-clock timestamps are nondeterministic and are not part
of any claim; they are omitted from the embedded step records.
-/

set_option linter.unusedVariables false

namespace DSAHelper

/-- Whitespace test for the JavaScript regex class backslash-s restricted to
the ASCII range (space, tab, newline, carriage return, vertical tab, form
feed); all scanned sources in the claims are ASCII. -/
def isWsChar (c : Char) : Bool :=
  c = ' ' || c = '\t' || c = '\n' || c = '\r' || c = Char.ofNat 11 || c = Char.ofNat 12

/-- Decimal digit test, the JavaScript regex class backslash-d. -/
def isDigitChar (c : Char) : Bool :=
  '0' ≤ c && c ≤ '9'

/-- Numeric value of a decimal digit character. -/
def digitVal (c : Char) : Nat := c.toNat - 48

/-- Drop a maximal run of whitespace, the greedy regex piece backslash-s star. -/
def dropWs : List Char → List Char
  | [] => []
  | c :: cs => if isWsChar c then dropWs cs else c :: cs

/-- Greedily consume decimal digits, extending the accumulator. -/
def takeDigits : List Char → Nat → Nat × List Char
  | [], acc => (acc, [])
  | c :: cs, acc =>
    if isDigitChar c then takeDigits cs (acc * 10 + digitVal c) else (acc, c :: cs)

/-- Parse a nonempty maximal digit run (the greedy regex piece backslash-d plus)
together with its numeric value, as parseInt reads it. -/
def parseDigits (cs : List Char) : Option (Nat × List Char) :=
  match cs with
  | [] => none
  | c :: cs2 => if isDigitChar c then some (takeDigits cs2 (digitVal c)) else none

/-- Match a literal character sequence at the head of the input, returning the
remainder on success. -/
def matchChars : List Char → List Char → Option (List Char)
  | [], cs => some cs
  | _ :: _, [] => none
  | p :: ps, c :: cs => if c = p then matchChars ps cs else none

/-- JavaScript String.prototype.includes, at the character-list level. -/
def charsContain (hay needle : List Char) : Bool :=
  match hay with
  | [] => needle.isEmpty
  | _ :: t => (matchChars needle hay).isSome || charsContain t needle

/-- JavaScript toLowerCase restricted to ASCII letters (every keyword and
marker the sources compare against is ASCII). -/
def jsToLower (c : Char) : Char :=
  if 'A' ≤ c && c ≤ 'Z' then Char.ofNat (c.toNat + 32) else c

/-- Lower-case an entire character list. -/
def lowerChars (cs : List Char) : List Char := cs.map jsToLower

/-- JavaScript String.prototype.split with separator newline. -/
def splitLinesAux : List Char → List Char → List (List Char)
  | [], acc => [acc.reverse]
  | c :: cs, acc =>
    if c = '\n' then acc.reverse :: splitLinesAux cs [] else splitLinesAux cs (c :: acc)

/-- Split a source text into its lines. -/
def splitLines (cs : List Char) : List (List Char) := splitLinesAux cs []

theorem dropWs_length_le (cs : List Char) : (dropWs cs).length ≤ cs.length := by
  induction cs with
  | nil => simp [dropWs]
  | cons c cs ih =>
    simp only [dropWs]
    split
    · exact Nat.le_trans ih (Nat.le_succ _)
    · simp

theorem takeDigits_length_le (cs : List Char) (acc : Nat) :
    (takeDigits cs acc).2.length ≤ cs.length := by
  induction cs generalizing acc with
  | nil => simp [takeDigits]
  | cons c cs ih =>
    simp only [takeDigits]
    split
    · exact Nat.le_trans (ih _) (Nat.le_succ _)
    · simp

theorem parseDigits_length_lt {cs rest : List Char} {n : Nat}
    (h : parseDigits cs = some (n, rest)) : rest.length < cs.length := by
  match cs with
  | [] => simp [parseDigits] at h
  | c :: cs2 =>
    simp only [parseDigits] at h
    split at h
    · have h2 : rest = (takeDigits cs2 (digitVal c)).2 := by
        cases h3 : takeDigits cs2 (digitVal c) with
        | mk v r => rw [h3] at h; cases h; rfl
      rw [h2]
      exact Nat.lt_succ_of_le (takeDigits_length_le _ _)
    · cases h

theorem matchChars_length_le {ps cs rest : List Char}
    (h : matchChars ps cs = some rest) : rest.length ≤ cs.length := by
  induction ps generalizing cs with
  | nil => simp [matchChars] at h; simp [h]
  | cons p ps ih =>
    match cs with
    | [] => simp [matchChars] at h
    | c :: cs2 =>
      simp only [matchChars] at h
      split at h
      · exact Nat.le_trans (ih h) (Nat.le_succ _)
      · cases h

/-- Generic leftmost-match regex scan: try the matcher at every start
position from left to right and return the first success, as a JavaScript
regex engine does for the patterns embedded below. -/
def scanFor {α : Type} (f : List Char → Option α) : List Char → Option α
  | [] => none
  | c :: cs =>
    match f (c :: cs) with
    | some v => some v
    | none => scanFor f cs

/-!
The array-literal regex of both extractArrayFromCode helpers is
  backslash-[ ( backslash-d+ ( backslash-s* , backslash-s* backslash-d+ )* ) backslash-]
Backtracking never changes its outcome: after a greedy digit run the next
pattern element is either the closing bracket (tried on the raw remainder) or
a whitespace-comma-whitespace-digits group, and shortening a greedy digit or
whitespace run always leaves a character that the follow-up element rejects.
So a deterministic scanner is an exact model.  The captured group is split on
commas, trimmed and fed to parseInt, which yields exactly the digit runs in
order; the matcher below returns that number list directly.
-/

/-- Continue an array-literal match after a digit run: either the closing
bracket ends the literal, or whitespace, a comma, whitespace and another
digit run follow.  Each round consumes at least one character, so with the
input length as fuel the fuel never runs out; the fuel only makes the
recursion structural, which keeps the definition computable by kernel
reduction. -/
def matchArrayTailF : Nat → List Nat → List Char → Option (List Nat)
  | _, acc, ']' :: _ => some acc.reverse
  | 0, _, _ => none
  | fuel + 1, acc, cs2 =>
    match dropWs cs2 with
    | ',' :: r2 =>
      match parseDigits (dropWs r2) with
      | some (n, r3) => matchArrayTailF fuel (n :: acc) r3
      | none => none
    | _ => none

/-- Continue an array-literal match after a digit run, with sufficient
fuel. -/
def matchArrayTail (acc : List Nat) (cs : List Char) : Option (List Nat) :=
  matchArrayTailF cs.length acc cs

/-- Match the array-literal regex anchored at the current position. -/
def matchArrayAt (cs : List Char) : Option (List Nat) :=
  match cs with
  | '[' :: r1 =>
    match parseDigits r1 with
    | some (n, r2) => matchArrayTail [n] r2
    | none => none
  | _ => none

/-- Leftmost match of the array-literal regex in a whole text, as the client
extractArrayFromCode applies it to the full source string. -/
def scanArray (cs : List Char) : Option (List Nat) := scanFor matchArrayAt cs

/-- Client CodeTracer.extractArrayFromCode: first bracketed list of
non-negative decimal integers anywhere in the source, as integers. -/
def extractArrayFromCode (cs : List Char) : Option (List Int) :=
  (scanArray cs).map (fun l => l.map Int.ofNat)

/-- Server extractArrayFromCode: the same regex applied line by line, first
matching line wins. -/
def extractArrayFromCodeServer : List (List Char) → Option (List Int)
  | [] => none
  | line :: rest =>
    match scanArray line with
    | some l => some (l.map Int.ofNat)
    | none => extractArrayFromCodeServer rest

/-!
Target regex of the client tracer:
  target backslash-s* = backslash-s* ( backslash-d+ )
    alternative
  find backslash-s* backslash-( backslash-s* ( backslash-d+ ) backslash-s* backslash-)
At one position the engine tries the first alternative, then the second; the
literal heads target and find are disjoint, so the deterministic scanner below
is exact.  parseInt is applied to whichever group matched.
-/

/-- Match the second target alternative, a find call, at the current position. -/
def matchFindAt (cs : List Char) : Option Nat :=
  match matchChars "find".toList cs with
  | some r1 =>
    match dropWs r1 with
    | '(' :: r2 =>
      match parseDigits (dropWs r2) with
      | some (n, r3) =>
        match dropWs r3 with
        | ')' :: _ => some n
        | _ => none
      | none => none
    | _ => none
  | none => none

/-- Match the target regex, either alternative, at the current position. -/
def matchTargetAt (cs : List Char) : Option Nat :=
  match matchChars "target".toList cs with
  | some r1 =>
    match dropWs r1 with
    | '=' :: r2 =>
      match parseDigits (dropWs r2) with
      | some (n, _) => some n
      | none => matchFindAt cs
    | _ => matchFindAt cs
  | none => matchFindAt cs

/-- Client CodeTracer.extractTargetFromCode. -/
def extractTargetFromCode (cs : List Char) : Option Int :=
  (scanFor matchTargetAt cs).map Int.ofNat

/-!
Enqueue-argument regex of the client queue-operation extractor:
  enqueue backslash-s* backslash-( backslash-s* ( backslash-d+ ) backslash-s* backslash-)
applied per line; again deterministic for the same reasons.
-/

/-- Match an enqueue call with a numeric argument at the current position. -/
def matchEnqueueAt (cs : List Char) : Option Nat :=
  match matchChars "enqueue".toList cs with
  | some r1 =>
    match dropWs r1 with
    | '(' :: r2 =>
      match parseDigits (dropWs r2) with
      | some (n, r3) =>
        match dropWs r3 with
        | ')' :: _ => some n
        | _ => none
      | none => none
    | _ => none
  | none => none

/-- First enqueue call with a numeric argument in a line. -/
def scanEnqueue (cs : List Char) : Option Nat := scanFor matchEnqueueAt cs

/-!
Classifier, client pattern-module variant (algorithm-patterns file,
detectAlgorithmType).  Regular-expression matching is abstracted as an oracle
mapping a regex source literal and the code to the text of its first match,
if any; the category table stores the regex source literals verbatim (with
braces written as hex escapes).  Keyword matching is by plain substring
containment on the lower-cased code, exactly as the source does, while the
regexes are run against the original code.  Confidence arithmetic is over the
rationals.
-/

/-- One category of the client pattern table. -/
structure AlgorithmPattern where
  type : String
  keywords : List String
  patterns : List String
  description : String
deriving DecidableEq

/-- Sorting category of the pattern table. -/
def sortingPattern : AlgorithmPattern :=
  ⟨"sorting",
   ["sort", "quicksort", "mergesort", "bubblesort", "insertionsort", "selectionsort", "heapsort"],
   ["function\\s+(\\w*sort\\w*)", "def\\s+(\\w*sort\\w*)",
    "public\\s+(\\w+\\s+)*(\\w*sort\\w*)", "(left|right|pivot|partition)",
    "(swap|exchange|compare)"],
   "Sorting algorithm"⟩

/-- Searching category of the pattern table. -/
def searchingPattern : AlgorithmPattern :=
  ⟨"searching",
   ["search", "binary", "linear", "find", "lookup"],
   ["function\\s+(\\w*search\\w*)", "def\\s+(\\w*search\\w*)",
    "public\\s+(\\w+\\s+)*(\\w*search\\w*)", "(binary|linear).*(search|find)",
    "(left|right|mid|middle)"],
   "Searching algorithm"⟩

/-- Graph category of the pattern table. -/
def graphPattern : AlgorithmPattern :=
  ⟨"graph",
   ["dfs", "bfs", "depth", "breadth", "graph", "adjacency", "vertex", "edge", "node"],
   ["function\\s+(dfs|bfs|depth|breadth)", "def\\s+(dfs|bfs|depth|breadth)",
    "(adjacency|graph|vertex|edge|node)", "(visited|queue|stack)",
    "(neighbors|adjacent)"],
   "Graph traversal algorithm"⟩

/-- Tree category of the pattern table. -/
def treePattern : AlgorithmPattern :=
  ⟨"tree",
   ["tree", "binary tree", "traversal", "inorder", "preorder", "postorder"],
   ["function\\s+(\\w*tree\\w*)", "def\\s+(\\w*tree\\w*)",
    "(inorder|preorder|postorder)", "(left|right).*(child|node)", "(root|leaf)"],
   "Tree traversal algorithm"⟩

/-- Recursion category of the pattern table. -/
def recursionPattern : AlgorithmPattern :=
  ⟨"recursion",
   ["recursion", "recursive", "fibonacci", "factorial"],
   ["function\\s+(\\w+)\\s*\\([^)]*\\)\\s*\\\x7b[^\x7d]*\\1\\s*\\(",
    "def\\s+(\\w+)\\s*\\([^)]*\\):[^:]*\\1\\s*\\(",
    "(fibonacci|factorial)", "return.*\\w+\\s*\\("],
   "Recursive algorithm"⟩

/-- Dynamic-programming category of the pattern table. -/
def dynamicProgrammingPattern : AlgorithmPattern :=
  ⟨"dynamic programming",
   ["dp", "memoization", "tabulation", "dynamic"],
   ["(memo|cache|dp)", "(tabulation|bottom.?up)", "\\[.*\\]\\[.*\\]"],
   "Dynamic programming algorithm"⟩

/-- The fixed, ordered category table of the client pattern module. -/
def algorithmPatterns : List AlgorithmPattern :=
  [sortingPattern, searchingPattern, graphPattern, treePattern,
   recursionPattern, dynamicProgrammingPattern]

/-- A regex oracle: regex source literal and subject text to the text of the
first match, if any. -/
def RegexOracle : Type := String → List Char → Option (List Char)

/-- The oracle under which no pattern matches; this is the exact semantics of
every regex in the table on the empty subject text, since each of them
requires at least one character. -/
def noRegexMatch : RegexOracle := fun _ _ => none

/-- Detection result of the client pattern module. -/
structure DetectionResult where
  type : String
  confidence : ℚ
  details : String
  matchList : List String

/-- Score one category: one point per keyword contained in the lower-cased
code, two points per matching regex, accumulating the matched texts. -/
def patternScore (pm : RegexOracle) (code csNorm : List Char) (p : AlgorithmPattern) :
    Nat × List String :=
  let kw := p.keywords.foldl
    (fun (st : Nat × List String) k =>
      if charsContain csNorm k.toList then (st.1 + 1, st.2 ++ [k]) else st)
    (0, [])
  p.patterns.foldl
    (fun (st : Nat × List String) r =>
      match pm r code with
      | some m => (st.1 + 2, st.2 ++ [String.append "pattern: " (String.mk m)])
      | none => st)
    kw

/-- Aggregate score of one category. -/
def clientScore (pm : RegexOracle) (code : List Char) (p : AlgorithmPattern) : Nat :=
  (patternScore pm code (lowerChars code) p).1

/-- Running-best fold shared by both classifier variants: keep the candidate
whose score strictly exceeds the best so far. -/
def bestFold {α β : Type} (score : α → Nat) (pack : α → β) (l : List α)
    (init : Nat × β) : Nat × β :=
  l.foldl (fun st p => if score p > st.1 then (score p, pack p) else st) init

/-- The category-selection loop of the client pattern-module
detectAlgorithmType: running maximum score with the winning type, pattern
and match list. -/
def clientBest (pm : RegexOracle) (code : List Char) :
    Nat × String × Option AlgorithmPattern × List String :=
  bestFold (fun p => (patternScore pm code (lowerChars code) p).1)
    (fun p => (p.type, some p, (patternScore pm code (lowerChars code) p).2))
    algorithmPatterns (0, ("unknown", none, []))

/-- Client pattern-module detectAlgorithmType. -/
def detectAlgorithmTypePatterns (pm : RegexOracle) (code : List Char) : DetectionResult :=
  ⟨(clientBest pm code).2.1,
   min (((clientBest pm code).1 : ℚ) * (1/5)) 1,
   (match (clientBest pm code).2.2.1 with
    | some p => p.description
    | none => "Unknown algorithm type"),
   (clientBest pm code).2.2.2⟩

/-!
Classifier, server variant (routes.ts detectAlgorithmType): keyword counts
only, no regexes, different confidence scaling, and an explicit 0.1
confidence when no keyword matched.  The route handlers pass the lower-cased
code to this function.
-/

/-- Server sorting category: type, keyword list, description. -/
def serverSortingCategory : String × List String × String :=
  ("sorting",
   ["sort", "quicksort", "mergesort", "bubblesort", "insertionsort", "selectionsort",
    "heapsort"], "Sorting algorithm")

/-- Server searching category. -/
def serverSearchingCategory : String × List String × String :=
  ("searching", ["search", "binary", "linear", "find"], "Searching algorithm")

/-- Server graph category. -/
def serverGraphCategory : String × List String × String :=
  ("graph", ["dfs", "bfs", "depth", "breadth", "graph", "adjacency", "vertex", "edge"],
   "Graph traversal algorithm")

/-- Server tree category. -/
def serverTreeCategory : String × List String × String :=
  ("tree", ["tree", "binary tree", "traversal", "inorder", "preorder", "postorder"],
   "Tree traversal algorithm")

/-- Server recursion category. -/
def serverRecursionCategory : String × List String × String :=
  ("recursion", ["recursion", "recursive", "fibonacci", "factorial"],
   "Recursive algorithm")

/-- Server category table, in declaration order. -/
def serverCategories : List (String × List String × String) :=
  [serverSortingCategory, serverSearchingCategory, serverGraphCategory,
   serverTreeCategory, serverRecursionCategory]

/-- Number of a category's keywords contained in the (already lower-cased)
code, the filter-then-length of the source. -/
def serverCategoryMatches (code : List Char) (cat : String × List String × String) : Nat :=
  cat.2.1.countP (fun k => charsContain code k.toList)

/-- Detection result of the server variant. -/
structure ServerDetection where
  type : String
  confidence : ℚ
  details : String

/-- The category-selection loop of the server detectAlgorithmType. -/
def serverBest (code : List Char) : Nat × String × String :=
  bestFold (serverCategoryMatches code) (fun cat => (cat.1, cat.2.2))
    serverCategories (0, ("unknown", ""))

/-- Server routes.ts detectAlgorithmType. -/
def detectAlgorithmTypeServer (code : List Char) : ServerDetection :=
  ⟨(serverBest code).2.1,
   if (serverBest code).1 > 0 then min (((serverBest code).1 : ℚ) * (3/10)) 1 else 1/10,
   (serverBest code).2.2⟩

/-- A decidable statement that every category of the client table scores
zero on a given input. -/
def allClientScoresZero (pm : RegexOracle) (code : List Char) : Bool :=
  (algorithmPatterns.map (clientScore pm code)).all (· == 0)

/-- A decidable statement that every category of the server table scores
zero on a given input. -/
def allServerScoresZero (code : List Char) : Bool :=
  (serverCategories.map (serverCategoryMatches code)).all (· == 0)

theorem bestFold_of_all_le {α β : Type} (score : α → Nat) (pack : α → β)
    (l : List α) (init : Nat × β) (h : ∀ p ∈ l, score p ≤ init.1) :
    bestFold score pack l init = init := by
  induction l with
  | nil => rfl
  | cons a l ih =>
    have ha : ¬ score a > init.1 := by
      have := h a (List.mem_cons_self a l)
      omega
    simp only [bestFold, List.foldl_cons, if_neg ha]
    exact ih (fun p hp => h p (List.mem_cons_of_mem a hp))

/-- Characterization of the running-best fold: either nothing beats the
initial score and the state is unchanged, or the result is the first
candidate attaining the final (strictly winning) score: everything declared
before it scores strictly less, everything after it scores no more. -/
theorem bestFold_spec {α β : Type} (score : α → Nat) (pack : α → β)
    (l : List α) (init : Nat × β) :
    (bestFold score pack l init = init ∧ ∀ p ∈ l, score p ≤ init.1) ∨
    (∃ l1 p l2, l = l1 ++ p :: l2 ∧ init.1 < score p ∧
      bestFold score pack l init = (score p, pack p) ∧
      (∀ q ∈ l1, score q < score p) ∧ (∀ q ∈ l2, score q ≤ score p)) := by
  induction l generalizing init with
  | nil => exact Or.inl ⟨rfl, by simp⟩
  | cons a l ih =>
    by_cases ha : score a > init.1
    · have hstep : bestFold score pack (a :: l) init
          = bestFold score pack l (score a, pack a) := by
        simp only [bestFold, List.foldl_cons, if_pos ha]
      rcases ih (score a, pack a) with ⟨heq, hle⟩ | ⟨l1, p, l2, hsplit, hgt, heq, hlt, hle⟩
      · refine Or.inr ⟨[], a, l, by simp, ha, ?_, by simp, ?_⟩
        · rw [hstep, heq]
        · exact fun q hq => hle q hq
      · refine Or.inr ⟨a :: l1, p, l2, by rw [hsplit]; rfl, ?_, ?_, ?_, hle⟩
        · omega
        · rw [hstep, heq]
        · intro q hq
          rcases List.mem_cons.mp hq with h | h
          · subst h; simpa using hgt
          · exact hlt q h
    · have hstep : bestFold score pack (a :: l) init = bestFold score pack l init := by
        simp only [bestFold, List.foldl_cons, if_neg ha]
      rcases ih init with ⟨heq, hle⟩ | ⟨l1, p, l2, hsplit, hgt, heq, hlt, hle⟩
      · refine Or.inl ⟨by rw [hstep, heq], ?_⟩
        intro p hp
        rcases List.mem_cons.mp hp with h | h
        · subst h; omega
        · exact hle p h
      · refine Or.inr ⟨a :: l1, p, l2, by rw [hsplit]; rfl, hgt, by rw [hstep, heq], ?_, hle⟩
        intro q hq
        rcases List.mem_cons.mp hq with h | h
        · subst h; omega
        · exact hlt q h

/-- The running-best fold started at score zero returns the first candidate
attaining the strictly-highest score, whenever that candidate scores
positively, beats everything declared before it strictly and is not beaten
by anything after it. -/
theorem bestFold_first_argmax {α β : Type} (score : α → Nat) (pack : α → β)
    (l : List α) (b0 : β) (pref : List α) (p1 : α) (suff : List α)
    (hsplit : l = pref ++ p1 :: suff) (hpos : 0 < score p1)
    (hlt : ∀ q ∈ pref, score q < score p1)
    (hle : ∀ q ∈ suff, score q ≤ score p1) :
    bestFold score pack l (0, b0) = (score p1, pack p1) := by
  rcases bestFold_spec score pack l (0, b0) with ⟨heq, hall⟩ | ⟨l1, p, l2, hsp, hgt, heq, hlt2, hle2⟩
  · exfalso
    have hmem : p1 ∈ l := by rw [hsplit]; exact List.mem_append_right _ (List.mem_cons_self _ _)
    have := hall p1 hmem
    simp only at this
    omega
  · have hpp : p = p1 := by
      have hcat : l1 ++ p :: l2 = pref ++ p1 :: suff := by rw [← hsp, ← hsplit]
      rcases List.append_eq_append_iff.mp hcat with ⟨a, ha1, ha2⟩ | ⟨c, hc1, hc2⟩
      · match a, ha2 with
        | [], ha2 => cases ha2; rfl
        | x :: a2, ha2 =>
          cases ha2
          exfalso
          have hxpref : p ∈ pref := by
            rw [ha1]
            exact List.mem_append_right _ (List.mem_cons_self _ _)
          have h1 := hlt p hxpref
          have h2 := hle2 p1 (List.mem_append_right _ (List.mem_cons_self _ _))
          omega
      · match c, hc2 with
        | [], hc2 => cases hc2; rfl
        | y :: c2, hc2 =>
          cases hc2
          exfalso
          have hyl1 : p1 ∈ l1 := by
            rw [hc1]
            exact List.mem_append_right _ (List.mem_cons_self _ _)
          have h1 := hlt2 p1 hyl1
          have h2 := hle p (by exact List.mem_append_right _ (List.mem_cons_self _ _))
          omega
    rw [heq, hpp]

/-- C3: both classifier variants score each category (client: one point per
keyword contained in the lower-cased text, two points per matching regex;
server: one point per keyword) and return the category with the strictly
highest aggregate score, the first-declared category winning exact ties
because a strict comparison is used.  Stated as: any category with a
positive score that strictly beats all earlier-declared categories and is
not beaten by any later-declared one is the one returned. -/
theorem classifier_first_strict_argmax :
    (∀ (pm : RegexOracle) (code : List Char) (pref : List AlgorithmPattern)
       (p1 : AlgorithmPattern) (suff : List AlgorithmPattern),
       algorithmPatterns = pref ++ p1 :: suff →
       0 < clientScore pm code p1 →
       (∀ q ∈ pref, clientScore pm code q < clientScore pm code p1) →
       (∀ q ∈ suff, clientScore pm code q ≤ clientScore pm code p1) →
       (detectAlgorithmTypePatterns pm code).type = p1.type) ∧
    (∀ (code : List Char) (pref : List (String × List String × String))
       (p1 : String × List String × String) (suff : List (String × List String × String)),
       serverCategories = pref ++ p1 :: suff →
       0 < serverCategoryMatches code p1 →
       (∀ q ∈ pref, serverCategoryMatches code q < serverCategoryMatches code p1) →
       (∀ q ∈ suff, serverCategoryMatches code q ≤ serverCategoryMatches code p1) →
       (detectAlgorithmTypeServer code).type = p1.1) := by
  constructor
  · intro pm code pref p1 suff hsplit hpos hlt hle
    have hb := bestFold_first_argmax
      (fun p => (patternScore pm code (lowerChars code) p).1)
      (fun p => (p.type, some p, (patternScore pm code (lowerChars code) p).2))
      algorithmPatterns ("unknown", none, []) pref p1 suff hsplit hpos hlt hle
    show (clientBest pm code).2.1 = p1.type
    rw [clientBest, hb]
  · intro code pref p1 suff hsplit hpos hlt hle
    have hb := bestFold_first_argmax (serverCategoryMatches code)
      (fun cat => (cat.1, cat.2.2)) serverCategories ("unknown", "") pref p1 suff
      hsplit hpos hlt hle
    show (serverBest code).2.1 = p1.1
    rw [serverBest, hb]

/-- Witness for C3: on the source text sort the sorting category scores 1
under the no-match oracle (correct for these regexes on that text, where no
regex matches), every other category scores 0, and both variants return
sorting. -/
theorem classifier_first_strict_argmax_witness :
    (detectAlgorithmTypePatterns noRegexMatch "sort".toList).type = "sorting" ∧
    (detectAlgorithmTypeServer "sort".toList).type = "sorting" :=
  ⟨classifier_first_strict_argmax.1 noRegexMatch "sort".toList [] sortingPattern
     [searchingPattern, graphPattern, treePattern, recursionPattern,
      dynamicProgrammingPattern] rfl (by decide) (by decide) (by decide),
   classifier_first_strict_argmax.2 "sort".toList [] serverSortingCategory
     [serverSearchingCategory, serverGraphCategory, serverTreeCategory,
      serverRecursionCategory] rfl (by decide) (by decide) (by decide)⟩

/-- C2 as stated is false for the client variant: on the empty source text
every category scores zero (the no-match oracle is the exact regex semantics
there, as every table regex needs at least one character), yet the client
classifier returns confidence 0, not 0.1. -/
theorem classifier_zero_score_client_cex :
    allClientScoresZero noRegexMatch [] = true ∧
    (detectAlgorithmTypePatterns noRegexMatch []).confidence ≠ 1/10 := by
  constructor
  · decide
  · have hb : clientBest noRegexMatch [] = (0, ("unknown", none, [])) := by decide
    show min (((clientBest noRegexMatch []).1 : ℚ) * (1/5)) 1 ≠ 1/10
    rw [hb]
    norm_num

/-- C2 (amended): on any input for which every category scores zero, both
variants return category unknown; the server variant returns confidence
exactly 0.1, while the client variant returns confidence 0 (it computes
min of the score times 0.2 and 1 even when the score is zero). -/
theorem classifier_zero_score_behaviour :
    (∀ (pm : RegexOracle) (code : List Char),
       (∀ p ∈ algorithmPatterns, clientScore pm code p = 0) →
       (detectAlgorithmTypePatterns pm code).type = "unknown" ∧
       (detectAlgorithmTypePatterns pm code).confidence = 0) ∧
    (∀ code : List Char,
       (∀ cat ∈ serverCategories, serverCategoryMatches code cat = 0) →
       (detectAlgorithmTypeServer code).type = "unknown" ∧
       (detectAlgorithmTypeServer code).confidence = 1/10) := by
  constructor
  · intro pm code h
    have hb : clientBest pm code = (0, ("unknown", none, [])) := by
      apply bestFold_of_all_le
      intro p hp
      exact Nat.le_of_eq (h p hp)
    constructor
    · show (clientBest pm code).2.1 = "unknown"
      rw [hb]
    · show min (((clientBest pm code).1 : ℚ) * (1/5)) 1 = 0
      rw [hb]
      norm_num
  · intro code h
    have hb : serverBest code = (0, ("unknown", "")) := by
      apply bestFold_of_all_le
      intro cat hcat
      exact Nat.le_of_eq (h cat hcat)
    constructor
    · show (serverBest code).2.1 = "unknown"
      rw [hb]
    · show (if (serverBest code).1 > 0 then min (((serverBest code).1 : ℚ) * (3/10)) 1
            else 1/10) = 1/10
      rw [hb]
      norm_num

/-- Witness for the amended C2 at the empty source text. -/
theorem classifier_zero_score_behaviour_witness :
    (detectAlgorithmTypePatterns noRegexMatch []).confidence = 0 ∧
    (detectAlgorithmTypeServer []).confidence = 1/10 :=
  ⟨(classifier_zero_score_behaviour.1 noRegexMatch [] (by decide)).2,
   (classifier_zero_score_behaviour.2 [] (by decide)).2⟩

/-!
Trace steps.  The embedded step record keeps the fields the claims are
about: the action tag, the data payload of the primary data-structure
snapshot, and the one numeric value (pivot, mid index, enqueued or dequeued
element, target) the step reports.  Timestamps and the fabricated
random metrics are nondeterministic and outside every claim, and the prose
description strings are derived from the same values; they are omitted.
-/

/-- One embedded trace step. -/
structure Step where
  action : String
  data : List Int
  value : Option Int
deriving DecidableEq

/-- Default input array of the sorting generators. -/
def defaultSortArray : List Int := [19, 7, 15, 12, 16, 18, 4, 11, 13]

/-- Default input array of the searching generators. -/
def defaultSearchArray : List Int := [1, 3, 5, 7, 9, 11, 13, 15]

/-- JavaScript Array.prototype.join with a single-space separator. -/
def joinWithSpace : List (List Char) → List Char
  | [] => []
  | [l] => l
  | l :: ls => l ++ ' ' :: joinWithSpace ls

/-- JavaScript String.prototype.trim (ASCII whitespace). -/
def trimChars (cs : List Char) : List Char :=
  ((dropWs ((dropWs cs).reverse)).reverse)

/-- Server analyzePivotStrategy: middle if the joined lower-cased code
mentions math.floor and length / 2, first if it mentions [0], last
otherwise. -/
def analyzePivotStrategy (lines : List (List Char)) : String :=
  let codeText := lowerChars (joinWithSpace lines)
  if charsContain codeText "math.floor".toList && charsContain codeText "length / 2".toList
  then "middle"
  else if charsContain codeText "[0]".toList then "first"
  else "last"

/-- Array used by the server sorting generator: extracted literal, else the
caller-provided input, else the default. -/
def serverSortArray (lines : List (List Char)) (input : Option (List Int)) : List Int :=
  ((extractArrayFromCodeServer lines).orElse (fun _ => input)).getD defaultSortArray

/-- Pivot index chosen by the server sorting generator: middle strategy takes
the floor of half the length, every other strategy (including first) takes
the last index. -/
def serverPivotIndex (lines : List (List Char)) (input : Option (List Int)) : Nat :=
  if analyzePivotStrategy lines = "middle"
  then (serverSortArray lines input).length / 2
  else (serverSortArray lines input).length - 1

/-- Pivot value reported by the server sorting generator. -/
def serverPivotValue (lines : List (List Char)) (input : Option (List Int)) : Int :=
  (serverSortArray lines input).getD (serverPivotIndex lines input) 0

/-- Server realPartition: strictly-less elements on the left, strictly-greater
on the right; elements equal to the pivot appear in neither part. -/
def realPartition (array : List Int) (pivot : Int) : List Int × List Int :=
  (array.filter (fun x => decide (x < pivot)), array.filter (fun x => decide (x > pivot)))

/-- Ascending numeric sort, as Array.prototype.sort with the numeric
comparator: any comparison sort yields the unique ascending reordering; an
insertion step keeps the model computable by kernel reduction. -/
def insertAsc (x : Int) : List Int → List Int
  | [] => [x]
  | y :: ys => if x ≤ y then x :: y :: ys else y :: insertAsc x ys

/-- Ascending numeric sort of a whole list. -/
def jsSortAsc (l : List Int) : List Int := l.foldr insertAsc []

/-- Final array of the server sorting generator: sorted left part, pivot
value, sorted right part. -/
def serverSortedArray (lines : List (List Char)) (input : Option (List Int)) : List Int :=
  let array := serverSortArray lines input
  let pivotValue := serverPivotValue lines input
  let pr := realPartition array pivotValue
  jsSortAsc pr.1 ++ pivotValue :: jsSortAsc pr.2

/-- Server generateSortingTraceSteps: initial array, pivot choice, partition,
optional recursive narration for parts longer than one element, and the
final sorted array. -/
def generateSortingTraceSteps (lines : List (List Char)) (input : Option (List Int)) :
    List Step :=
  let array := serverSortArray lines input
  let pivotValue := serverPivotValue lines input
  let pr := realPartition array pivotValue
  [⟨"INIT_ARRAY", array, none⟩,
   ⟨"CHOOSE_PIVOT", array, some pivotValue⟩,
   ⟨"PARTITION", array, some pivotValue⟩]
  ++ (if pr.1.length > 1 then [⟨"RECURSIVE_LEFT", pr.1, none⟩] else [])
  ++ (if pr.2.length > 1 then [⟨"RECURSIVE_RIGHT", pr.2, none⟩] else [])
  ++ [⟨"COMPLETE", serverSortedArray lines input, none⟩]

/-- Server binary-search loop of generateSearchingTraceSteps: one mid step
and one branch step per iteration, a FOUND step on success.  The source
guard also requires the step counter, which starts at one and is incremented
once per iteration, to stay below five; this defensive bound is modelled by
the remaining-iteration budget (initially four), which keeps the recursion
structural.  Returns the steps with the final found flag and found index. -/
def searchLoopServer (array : List Int) (target : Int) :
    Int → Int → Bool → Int → Nat → List Step × Bool × Int
  | _, _, found, foundIndex, 0 => ([], found, foundIndex)
  | left, right, found, foundIndex, budget + 1 =>
    if left ≤ right ∧ found = false then
      let mid := Int.fdiv (left + right) 2
      if array.getD mid.toNat 0 = target then
        ([⟨"CALCULATE_MID", array, some mid⟩, ⟨"FOUND", array, some mid⟩], true, mid)
      else if array.getD mid.toNat 0 < target then
        let rest := searchLoopServer array target (mid + 1) right found foundIndex budget
        (⟨"CALCULATE_MID", array, some mid⟩ :: ⟨"SEARCH_RIGHT", array, none⟩ :: rest.1,
         rest.2.1, rest.2.2)
      else
        let rest := searchLoopServer array target left (mid - 1) found foundIndex budget
        (⟨"CALCULATE_MID", array, some mid⟩ :: ⟨"SEARCH_LEFT", array, none⟩ :: rest.1,
         rest.2.1, rest.2.2)
    else ([], found, foundIndex)

/-- Server generateSearchingTraceSteps over the caller-provided or default
array and target; also exposes the final found flag and found index, which
are local variables of the source loop. -/
def generateSearchingTraceSteps (input : Option (List Int × Int)) :
    List Step × Bool × Int :=
  let sd := input.getD (defaultSearchArray, 7)
  let res := searchLoopServer sd.1 sd.2 0 ((sd.1.length : Int) - 1) false (-1) 4
  (⟨"INIT", sd.1, some sd.2⟩ :: res.1, res.2)

/-- A queue operation as both generators represent it; the enqueue payload is
optional because the source records carry an optional value field. -/
inductive QueueOp
  | enqueue (value : Option Nat)
  | dequeue
deriving DecidableEq

/-- The fixed operation sequence hard-coded in the server queue generator. -/
def serverQueueOps : List QueueOp :=
  [QueueOp.enqueue (some 10), QueueOp.enqueue (some 20), QueueOp.dequeue,
   QueueOp.enqueue (some 30)]

/-- The fallback operation sequence of the client queue-operation extractor. -/
def defaultQueueOps : List QueueOp :=
  [QueueOp.enqueue (some 10), QueueOp.enqueue (some 20), QueueOp.dequeue,
   QueueOp.enqueue (some 30)]

/-- Server queue replay: push on enqueue (skipped when the value is absent or
zero, the truthiness guard of the source), shift on dequeue, one step per
performed operation. -/
def replayServerQueue (ops : List QueueOp) (q : List Int) : List Int × List Step :=
  match ops with
  | [] => (q, [])
  | QueueOp.enqueue v :: rest =>
    match v with
    | some n =>
      if n ≠ 0 then
        let q2 := q ++ [(n : Int)]
        let r := replayServerQueue rest q2
        (r.1, ⟨"ENQUEUE", q2, some (n : Int)⟩ :: r.2)
      else replayServerQueue rest q
    | none => replayServerQueue rest q
  | QueueOp.dequeue :: rest =>
    let q2 := q.tail
    let r := replayServerQueue rest q2
    (r.1, ⟨"DEQUEUE", q2, q.head?⟩ :: r.2)

/-- Server generateQueueTraceSteps: an initialization step followed by the
replay of the hard-coded operation sequence; the source text plays no role. -/
def generateQueueTraceSteps (lines : List (List Char)) : List Step :=
  ⟨"INIT", [], none⟩ :: (replayServerQueue serverQueueOps []).2

/-- Server generateGenericTraceSteps: one EXECUTE step per line whose trimmed
text is nonempty. -/
def generateGenericTraceSteps (lines : List (List Char)) : List Step :=
  (lines.filter (fun l => !(trimChars l).isEmpty)).map (fun _ => ⟨"EXECUTE", [], none⟩)

/-- Server generateTraceSteps dispatcher.  The source pushes an
initialization step into a local list and then returns a fresh list built by
the per-category generator, discarding the local one; the embedding returns
what the function returns.  The untyped input parameter is modelled by the
two readings the generators give it. -/
def generateTraceStepsServer (code : List Char) (inputArr : Option (List Int))
    (inputSearch : Option (List Int × Int)) : List Step :=
  let lines := (splitLines code).filter (fun l => !(trimChars l).isEmpty)
  let t := (detectAlgorithmTypeServer (lowerChars code)).type
  if t = "sorting" then generateSortingTraceSteps lines inputArr
  else if t = "searching" then (generateSearchingTraceSteps inputSearch).1
  else if t = "queue" then generateQueueTraceSteps lines
  else generateGenericTraceSteps lines

/-- Complexity table keyed by category, server getTimeComplexity. -/
def getTimeComplexity (algorithmType : String) : String :=
  (([("sorting", "O(n log n)"), ("searching", "O(log n)"),
     ("queue", "O(1) per operation"), ("stack", "O(1) per operation"),
     ("graph", "O(V + E)"), ("tree", "O(n)"),
     ("unknown", "Unknown")].lookup algorithmType).getD "Unknown")

/-- Complexity table keyed by category, server getSpaceComplexity. -/
def getSpaceComplexity (algorithmType : String) : String :=
  (([("sorting", "O(log n)"), ("searching", "O(1)"), ("queue", "O(n)"),
     ("stack", "O(n)"), ("graph", "O(V)"), ("tree", "O(h)"),
     ("unknown", "Unknown")].lookup algorithmType).getD "Unknown")

/-- Result of the server execution endpoint, without the fabricated random
time and memory numbers. -/
structure ServerExecution where
  success : Bool
  algorithmType : String
  steps : List Step
  operations : Nat
  timeComplexity : String
  spaceComplexity : String

/-- Server generateEnhancedExecution: classify, generate, and report the
complexity record with the operation count set to the step count. -/
def generateEnhancedExecution (code : List Char) (inputArr : Option (List Int))
    (inputSearch : Option (List Int × Int)) : ServerExecution :=
  let t := (detectAlgorithmTypeServer (lowerChars code)).type
  let traceSteps := generateTraceStepsServer code inputArr inputSearch
  ⟨true, t, traceSteps, traceSteps.length, getTimeComplexity t, getSpaceComplexity t⟩

/-!
Client tracer (code-tracer.ts, class CodeTracer).  The class accumulates
steps in a field; the embedding threads the same step lists explicitly.  The
try/catch of the trace method is a dead backstop here: every operation on
the paths below is total, which is what claim C7 asserts.
-/

/-- Client CodeTracer.detectAlgorithmType, a fixed cascade of substring
tests on the lower-cased code. -/
def detectAlgorithmTypeClient (cs : List Char) : String :=
  let n := lowerChars cs
  if charsContain n "quicksort".toList || charsContain n "partition".toList ||
     (charsContain n "sort".toList && charsContain n "pivot".toList) then "sorting"
  else if charsContain n "queue".toList || charsContain n "enqueue".toList ||
     charsContain n "dequeue".toList then "queue"
  else if charsContain n "stack".toList || charsContain n "push".toList ||
     charsContain n "pop".toList then "stack"
  else if charsContain n "binary search".toList || charsContain n "search".toList
  then "searching"
  else if charsContain n "tree".toList || charsContain n "node".toList then "tree"
  else if charsContain n "graph".toList || charsContain n "dfs".toList ||
     charsContain n "bfs".toList then "graph"
  else "generic"

/-- The simultaneous assignment swap of two array cells, as the source
writes it; reads happen before either write.  All uses below are in
bounds. -/
def listSwap (l : List Int) (i j : Nat) : List Int :=
  (l.set i (l.getD j 0)).set j (l.getD i 0)

/-- Client partitionTrace loop body.  The source keeps the boundary index i
starting at low minus one and swaps at i after incrementing; the embedding
carries k, which equals i plus one throughout, so k starts at low, a swap
happens at k, and the returned pivot position is the final k.  One COMPARE
step per loop iteration and one SWAP step per executed swap, as the source
emits them. -/
def partLoop (arr : List Int) (pivot : Int) (k j high : Nat) :
    List Int × Nat × List Step :=
  if h : j < high then
    if arr.getD j 0 ≤ pivot then
      let arr2 := listSwap arr k j
      let r := partLoop arr2 pivot (k + 1) (j + 1) high
      (r.1, r.2.1, ⟨"COMPARE", arr, some (arr.getD j 0)⟩ :: ⟨"SWAP", arr2, none⟩ :: r.2.2)
    else
      let r := partLoop arr pivot k (j + 1) high
      (r.1, r.2.1, ⟨"COMPARE", arr, some (arr.getD j 0)⟩ :: r.2.2)
  else
    (listSwap arr k high, k, [])
termination_by high - j

/-- Client partitionTrace: run the loop from low and finish by swapping the
pivot into place; returns the resulting array, the pivot index and the
emitted steps. -/
def partitionTrace (arr : List Int) (low high : Nat) (pivot : Int) :
    List Int × Nat × List Step :=
  partLoop arr pivot low low high

theorem partLoop_k_bounds_aux (pivot : Int) :
    ∀ (n : Nat) (arr : List Int) (k j high : Nat), high - j = n → k ≤ j → j ≤ high →
    k ≤ (partLoop arr pivot k j high).2.1 ∧ (partLoop arr pivot k j high).2.1 ≤ high := by
  intro n
  induction n with
  | zero =>
    intro arr k j high hn hkj hjh
    have hj : ¬ j < high := by omega
    rw [partLoop.eq_def]
    simp only [dif_neg hj]
    omega
  | succ n ih =>
    intro arr k j high hn hkj hjh
    rw [partLoop.eq_def]
    by_cases hlt : j < high
    · simp only [dif_pos hlt]
      by_cases hle : arr.getD j 0 ≤ pivot
      · simp only [if_pos hle]
        have hrec := ih (listSwap arr k j) (k + 1) (j + 1) high (by omega) (by omega)
          (by omega)
        omega
      · simp only [if_neg hle]
        have hrec := ih arr k (j + 1) high (by omega) (by omega) (by omega)
        omega
    · simp only [dif_neg hlt]
      omega

theorem partLoop_k_bounds (arr : List Int) (pivot : Int) (k j high : Nat)
    (hkj : k ≤ j) (hjh : j ≤ high) :
    k ≤ (partLoop arr pivot k j high).2.1 ∧ (partLoop arr pivot k j high).2.1 ≤ high :=
  partLoop_k_bounds_aux pivot (high - j) arr k j high rfl hkj hjh

theorem partitionTrace_k_bounds (arr : List Int) (low high : Nat) (pivot : Int)
    (h : low ≤ high) :
    low ≤ (partitionTrace arr low high pivot).2.1 ∧
    (partitionTrace arr low high pivot).2.1 ≤ high :=
  partLoop_k_bounds arr pivot low low high (Nat.le_refl _) h

/-- Client quicksortTrace: choose the last element as pivot, partition in
place, narrate, and recurse on both sides. -/
def quicksortTrace (arr : List Int) (low high : Nat) : List Int × List Step :=
  if h : low < high then
    let pivotValue := arr.getD high 0
    let p := partitionTrace arr low high pivotValue
    let q1 := quicksortTrace p.1 low (p.2.1 - 1)
    let q2 := quicksortTrace q1.1 (p.2.1 + 1) high
    (q2.1,
     ⟨"CHOOSE_PIVOT", arr, some pivotValue⟩ :: p.2.2
       ++ ⟨"PARTITION", p.1, some pivotValue⟩ :: (q1.2 ++ q2.2))
  else (arr, [])
termination_by high + 1 - low
decreasing_by
  · have hb := partitionTrace_k_bounds arr low high (arr.getD high 0) (Nat.le_of_lt h)
    omega
  · have hb := partitionTrace_k_bounds arr low high (arr.getD high 0) (Nat.le_of_lt h)
    omega

/-- Client binary-search loop of binarySearchTrace: one mid step and one
branch step per iteration, a FOUND step on success; returns the steps with
the final found flag and found index (false and minus one when the bounds
are exhausted). -/
def searchLoopClient (arr : List Int) (target : Int) (left right : Int) :
    List Step × Bool × Int :=
  if h : left ≤ right then
    let mid := Int.fdiv (left + right) 2
    if arr.getD mid.toNat 0 = target then
      ([⟨"CALCULATE_MID", arr, some mid⟩, ⟨"FOUND", arr, some mid⟩], true, mid)
    else if arr.getD mid.toNat 0 < target then
      let rest := searchLoopClient arr target (mid + 1) right
      (⟨"CALCULATE_MID", arr, some mid⟩ :: ⟨"SEARCH_RIGHT", arr, none⟩ :: rest.1, rest.2)
    else
      let rest := searchLoopClient arr target left (mid - 1)
      (⟨"CALCULATE_MID", arr, some mid⟩ :: ⟨"SEARCH_LEFT", arr, none⟩ :: rest.1, rest.2)
  else ([], false, -1)
termination_by (right + 1 - left).toNat
decreasing_by
  · have hm : Int.fdiv (left + right) 2 = (left + right) / 2 :=
      Int.fdiv_eq_ediv _ (by norm_num)
    omega
  · have hm : Int.fdiv (left + right) 2 = (left + right) / 2 :=
      Int.fdiv_eq_ediv _ (by norm_num)
    omega

/-- Client per-line queue-operation extraction before the fallback: a line
mentioning enqueue contributes an operation exactly when the enqueue-call
regex matches in it, otherwise a line mentioning dequeue contributes a
dequeue. -/
def extractQueueOperationsRaw (cs : List Char) : List QueueOp :=
  (splitLines cs).foldl
    (fun acc line =>
      if charsContain line "enqueue".toList then
        match scanEnqueue line with
        | some v => acc ++ [QueueOp.enqueue (some v)]
        | none => acc
      else if charsContain line "dequeue".toList then acc ++ [QueueOp.dequeue]
      else acc)
    []

/-- Client extractQueueOperations: the extracted operations, or the fixed
default sequence when none were extracted. -/
def extractQueueOperations (cs : List Char) : List QueueOp :=
  if (extractQueueOperationsRaw cs).length > 0 then extractQueueOperationsRaw cs
  else defaultQueueOps

/-- Client queue replay: push on enqueue (skipped when the record has no
value, the undefined check of the source), shift on dequeue, one step per
performed operation. -/
def replayClientQueue : List QueueOp → List Int → List Int × List Step
  | [], q => (q, [])
  | QueueOp.enqueue v :: rest, q =>
    match v with
    | some n =>
      let q2 := q ++ [(n : Int)]
      let r := replayClientQueue rest q2
      (r.1, ⟨"ENQUEUE", q2, some (n : Int)⟩ :: r.2)
    | none => replayClientQueue rest q
  | QueueOp.dequeue :: rest, q =>
    let q2 := q.tail
    let r := replayClientQueue rest q2
    (r.1, ⟨"DEQUEUE", q2, q.head?⟩ :: r.2)

/-- Final-state payload of a client trace result. -/
inductive FinalState
  | noState
  | arrState (l : List Int)
  | searchState (found : Bool) (index : Int)
  | queueState (q : List Int)
deriving DecidableEq

/-- Client trace result, without the fabricated random metrics. -/
structure CodeTraceResult where
  success : Bool
  algorithmType : String
  steps : List Step
  finalState : FinalState
  timeComplexity : String
  spaceComplexity : String
  operations : Nat
deriving DecidableEq

/-- The program-initialization step the trace method emits before
dispatching. -/
def initStep : Step := ⟨"INIT", [], none⟩

/-- Array selected by the client sorting tracer. -/
def clientSortingArray (cs : List Char) : List Int :=
  (extractArrayFromCode cs).getD defaultSortArray

/-- Array selected by the client searching tracer. -/
def clientSearchArray (cs : List Char) : List Int :=
  (extractArrayFromCode cs).getD defaultSearchArray

/-- Target selected by the client searching tracer. -/
def clientSearchTarget (cs : List Char) : Int :=
  (extractTargetFromCode cs).getD 7

/-- Client traceSortingAlgorithm: quicksort the extracted or default array
in place; the operation count is the final step count. -/
def traceSortingAlgorithmClient (cs : List Char) : CodeTraceResult :=
  let inputArray := clientSortingArray cs
  let qs := quicksortTrace inputArray 0 (inputArray.length - 1)
  let steps := initStep :: ⟨"INIT_ARRAY", inputArray, none⟩ :: qs.2
  ⟨true, "sorting", steps, FinalState.arrState qs.1,
   "O(n log n) average, O(n²) worst", "O(log n)", steps.length⟩

/-- Client traceSearchingAlgorithm and binarySearchTrace; the operation
count is the final step count. -/
def traceSearchingAlgorithmClient (cs : List Char) : CodeTraceResult :=
  let inputArray := clientSearchArray cs
  let target := clientSearchTarget cs
  let bs := searchLoopClient inputArray target 0 ((inputArray.length : Int) - 1)
  let steps := initStep :: ⟨"INIT", inputArray, some target⟩ :: bs.1
  ⟨true, "searching", steps, FinalState.searchState bs.2.1 bs.2.2,
   "O(log n)", "O(1)", steps.length⟩

/-- Client traceQueueAlgorithm; the operation count is the length of the
operation list, not the step count. -/
def traceQueueAlgorithmClient (cs : List Char) : CodeTraceResult :=
  let operations := extractQueueOperations cs
  let r := replayClientQueue operations []
  let steps := initStep :: r.2
  ⟨true, "queue", steps, FinalState.queueState r.1,
   "O(1) per operation", "O(n)", operations.length⟩

/-- Client traceGenericAlgorithm: one EXECUTE step per source line, at most
ten. -/
def traceGenericAlgorithmClient (cs : List Char) : CodeTraceResult :=
  let lines := splitLines cs
  let steps := initStep ::
    (List.range (min lines.length 10)).map (fun _ => (⟨"EXECUTE", [], none⟩ : Step))
  ⟨true, "generic", steps, FinalState.noState, "Unknown", "Unknown", steps.length⟩

/-- Client CodeTracer.trace: detect the category and dispatch; the stack,
tree and graph tracers of the source delegate to the generic tracer. -/
def traceClient (code : String) : CodeTraceResult :=
  let cs := code.toList
  let t := detectAlgorithmTypeClient cs
  if t = "sorting" then traceSortingAlgorithmClient cs
  else if t = "searching" then traceSearchingAlgorithmClient cs
  else if t = "queue" then traceQueueAlgorithmClient cs
  else traceGenericAlgorithmClient cs

/-!
Swap lemmas for the in-place quicksort verification.
-/


theorem listSwap_length (l : List Int) (i j : Nat) :
    (listSwap l i j).length = l.length := by
  simp [listSwap]

theorem getD_def_eq {l : List Int} {i : Nat} (h : i < l.length) :
    l.getD i 0 = l[i] := List.getD_eq_getElem l 0 h

theorem listSwap_getD_fst (l : List Int) (i j : Nat) (hi : i < l.length)
    (hj : j < l.length) : (listSwap l i j).getD i 0 = l.getD j 0 := by
  have hlen : i < (listSwap l i j).length := by rw [listSwap_length]; exact hi
  rw [List.getD_eq_getElem _ _ hlen]
  by_cases hij : i = j
  · subst hij
    simp [listSwap]
  · have hb2 : i < ((l.set i (l.getD j 0)).set j (l.getD i 0)).length := by
      simpa [listSwap] using hlen
    show ((l.set i (l.getD j 0)).set j (l.getD i 0))[i] = l.getD j 0
    rw [List.getElem_set_ne (by omega)]
    · rw [List.getElem_set_self]
    
theorem listSwap_getD_snd (l : List Int) (i j : Nat) (hi : i < l.length)
    (hj : j < l.length) : (listSwap l i j).getD j 0 = l.getD i 0 := by
  have hlen : j < (listSwap l i j).length := by rw [listSwap_length]; exact hj
  rw [List.getD_eq_getElem _ _ hlen]
  have hb2 : j < ((l.set i (l.getD j 0)).set j (l.getD i 0)).length := by
    simpa [listSwap] using hlen
  show ((l.set i (l.getD j 0)).set j (l.getD i 0))[j] = l.getD i 0
  rw [List.getElem_set_self]

theorem listSwap_getD_other (l : List Int) (i j idx : Nat) (h1 : idx ≠ i)
    (h2 : idx ≠ j) : (listSwap l i j).getD idx 0 = l.getD idx 0 := by
  by_cases hlt : idx < l.length
  · have hlen : idx < (listSwap l i j).length := by rw [listSwap_length]; exact hlt
    rw [List.getD_eq_getElem _ _ hlen, List.getD_eq_getElem _ _ hlt]
    have hb2 : idx < ((l.set i (l.getD j 0)).set j (l.getD i 0)).length := by
      simpa [listSwap] using hlen
    show ((l.set i (l.getD j 0)).set j (l.getD i 0))[idx] = _
    rw [List.getElem_set_ne (by omega), List.getElem_set_ne (by omega)]
  · rw [List.getD_eq_default, List.getD_eq_default] <;> simp [listSwap_length] at * <;> omega

theorem count_ge_boole (l : List Int) (x : Int) (i : Nat) (h : i < l.length) :
    (if l[i] == x then 1 else 0) ≤ l.count x := by
  rw [List.count_eq_countP]
  exact List.boole_getElem_le_countP (· == x) l i h

theorem listSwap_perm (l : List Int) (i j : Nat) (hi : i < l.length)
    (hj : j < l.length) : (listSwap l i j).Perm l := by
  rw [List.perm_iff_count]
  intro x
  by_cases hij : i = j
  · subst hij
    rw [listSwap, List.set_set, List.count_set _ _ _ _ hi]
    have hb := count_ge_boole l x i hi
    have : l[i] = l.getD i 0 := (getD_def_eq hi).symm
    rw [← this]
    by_cases hx : (l[i] == x) = true
    · simp only [hx, if_true] at hb ⊢
      omega
    · have hx2 : (l[i] == x) = false := by simpa using hx
      simp only [hx2, if_false] at hb ⊢
      omega
  · rw [listSwap, List.count_set _ _ _ _ (by simpa using hj), List.count_set _ _ _ _ hi]
    have hj2 : j < (l.set i (l.getD j 0)).length := by simpa using hj
    have e1 : (l.set i (l.getD j 0))[j] = l[j] := by
      rw [List.getElem_set_ne (by omega)]
    have hbi := count_ge_boole l x i hi
    have hbj := count_ge_boole l x j hj
    rcases Bool.eq_false_or_eq_true (l[i] == x) with hx1 | hx1 <;>
      rcases Bool.eq_false_or_eq_true (l[j] == x) with hx2 | hx2 <;>
      rw [e1, getD_def_eq hi, getD_def_eq hj] <;>
      simp only [hx1, hx2, if_true, if_false] at hbi hbj ⊢ <;> omega


/-!
Lomuto partition-loop invariants.
-/


theorem partLoop_length_aux (pivot : Int) :
    ∀ (n : Nat) (arr : List Int) (k j high : Nat), high - j = n →
    (partLoop arr pivot k j high).1.length = arr.length := by
  intro n
  induction n with
  | zero =>
    intro arr k j high hn
    rw [partLoop.eq_def]
    simp only [dif_neg (show ¬ j < high by omega)]
    exact listSwap_length arr k high
  | succ n ih =>
    intro arr k j high hn
    have hlt : j < high := by omega
    rw [partLoop.eq_def]
    simp only [dif_pos hlt]
    by_cases hle : arr.getD j 0 ≤ pivot
    · simp only [if_pos hle]
      have := ih (listSwap arr k j) (k + 1) (j + 1) high (by omega)
      rw [listSwap_length] at this
      exact this
    · simp only [if_neg hle]
      exact ih arr k (j + 1) high (by omega)

theorem partLoop_length (arr : List Int) (pivot : Int) (k j high : Nat) :
    (partLoop arr pivot k j high).1.length = arr.length :=
  partLoop_length_aux pivot (high - j) arr k j high rfl

theorem partLoop_perm_aux (pivot : Int) :
    ∀ (n : Nat) (arr : List Int) (k j high : Nat), high - j = n →
    k ≤ j → j ≤ high → high < arr.length →
    (partLoop arr pivot k j high).1.Perm arr := by
  intro n
  induction n with
  | zero =>
    intro arr k j high hn hkj hjh hlen
    rw [partLoop.eq_def]
    simp only [dif_neg (show ¬ j < high by omega)]
    exact listSwap_perm arr k high (by omega) hlen
  | succ n ih =>
    intro arr k j high hn hkj hjh hlen
    have hlt : j < high := by omega
    rw [partLoop.eq_def]
    simp only [dif_pos hlt]
    by_cases hle : arr.getD j 0 ≤ pivot
    · simp only [if_pos hle]
      have h1 := ih (listSwap arr k j) (k + 1) (j + 1) high (by omega) (by omega)
        (by omega) (by rw [listSwap_length]; exact hlen)
      exact h1.trans (listSwap_perm arr k j (by omega) (by omega))
    · simp only [if_neg hle]
      exact ih arr k (j + 1) high (by omega) (by omega) (by omega) hlen

theorem partLoop_perm (arr : List Int) (pivot : Int) (k j high : Nat)
    (hkj : k ≤ j) (hjh : j ≤ high) (hlen : high < arr.length) :
    (partLoop arr pivot k j high).1.Perm arr :=
  partLoop_perm_aux pivot (high - j) arr k j high rfl hkj hjh hlen

theorem partLoop_untouched_aux (pivot : Int) :
    ∀ (n : Nat) (arr : List Int) (k j high : Nat), high - j = n →
    k ≤ j → j ≤ high →
    ∀ idx, (idx < k ∨ high < idx) →
    (partLoop arr pivot k j high).1.getD idx 0 = arr.getD idx 0 := by
  intro n
  induction n with
  | zero =>
    intro arr k j high hn hkj hjh idx hidx
    rw [partLoop.eq_def]
    simp only [dif_neg (show ¬ j < high by omega)]
    exact listSwap_getD_other arr k high idx (by omega) (by omega)
  | succ n ih =>
    intro arr k j high hn hkj hjh idx hidx
    have hlt : j < high := by omega
    rw [partLoop.eq_def]
    simp only [dif_pos hlt]
    by_cases hle : arr.getD j 0 ≤ pivot
    · simp only [if_pos hle]
      have h1 := ih (listSwap arr k j) (k + 1) (j + 1) high (by omega) (by omega)
        (by omega) idx (by omega)
      rw [h1]
      exact listSwap_getD_other arr k j idx (by omega) (by omega)
    · simp only [if_neg hle]
      exact ih arr k (j + 1) high (by omega) (by omega) (by omega) idx hidx

theorem partLoop_untouched (arr : List Int) (pivot : Int) (k j high : Nat)
    (hkj : k ≤ j) (hjh : j ≤ high) (idx : Nat) (hidx : idx < k ∨ high < idx) :
    (partLoop arr pivot k j high).1.getD idx 0 = arr.getD idx 0 :=
  partLoop_untouched_aux pivot (high - j) arr k j high rfl hkj hjh idx hidx

theorem partLoop_post_aux (pivot : Int) (low : Nat) :
    ∀ (n : Nat) (arr : List Int) (k j high : Nat), high - j = n →
    low ≤ k → k ≤ j → j ≤ high → high < arr.length →
    arr.getD high 0 = pivot →
    (∀ idx, low ≤ idx → idx < k → arr.getD idx 0 ≤ pivot) →
    (∀ idx, k ≤ idx → idx < j → pivot < arr.getD idx 0) →
    (∀ idx, low ≤ idx → idx < (partLoop arr pivot k j high).2.1 →
        (partLoop arr pivot k j high).1.getD idx 0 ≤ pivot) ∧
    (partLoop arr pivot k j high).1.getD (partLoop arr pivot k j high).2.1 0 = pivot ∧
    (∀ idx, (partLoop arr pivot k j high).2.1 < idx → idx ≤ high →
        pivot < (partLoop arr pivot k j high).1.getD idx 0) := by
  intro n
  induction n with
  | zero =>
    intro arr k j high hn hlk hkj hjh hlen hp hA hB
    have hjeq : j = high := by omega
    rw [partLoop.eq_def]
    simp only [dif_neg (show ¬ j < high by omega)]
    refine ⟨?_, ?_, ?_⟩
    · intro idx hl hi
      have he : (listSwap arr k high).getD idx 0 = arr.getD idx 0 :=
        listSwap_getD_other arr k high idx (by omega) (by omega)
      exact he.trans_le (hA idx hl hi)
    · have he : (listSwap arr k high).getD k 0 = arr.getD high 0 :=
        listSwap_getD_fst arr k high (by omega) hlen
      exact he.trans hp
    · intro idx hk hi
      by_cases hih : idx = high
      · have he : (listSwap arr k high).getD idx 0 = arr.getD k 0 := by
          rw [hih]
          exact listSwap_getD_snd arr k high (by omega) hlen
        rw [he]
        exact hB k (Nat.le_refl k) (by omega)
      · have he : (listSwap arr k high).getD idx 0 = arr.getD idx 0 :=
          listSwap_getD_other arr k high idx (by omega) (by omega)
        rw [he]
        exact hB idx (by omega) (by omega)
  | succ n ih =>
    intro arr k j high hn hlk hkj hjh hlen hp hA hB
    have hlt : j < high := by omega
    rw [partLoop.eq_def]
    simp only [dif_pos hlt]
    by_cases hle : arr.getD j 0 ≤ pivot
    · simp only [if_pos hle]
      refine ih (listSwap arr k j) (k + 1) (j + 1) high (by omega) (by omega) (by omega)
        (by omega) (by rw [listSwap_length]; exact hlen) ?_ ?_ ?_
      · have : (listSwap arr k j).getD high 0 = arr.getD high 0 :=
          listSwap_getD_other arr k j high (by omega) (by omega)
        rw [this]
        exact hp
      · intro idx hl hi
        by_cases hik : idx = k
        · have he : (listSwap arr k j).getD idx 0 = arr.getD j 0 := by
            rw [hik]
            exact listSwap_getD_fst arr k j (by omega) (by omega)
          rw [he]
          exact hle
        · have he : (listSwap arr k j).getD idx 0 = arr.getD idx 0 :=
            listSwap_getD_other arr k j idx (by omega) (by omega)
          rw [he]
          exact hA idx hl (by omega)
      · intro idx hk hi
        by_cases hij : idx = j
        · have he : (listSwap arr k j).getD idx 0 = arr.getD k 0 := by
            rw [hij]
            exact listSwap_getD_snd arr k j (by omega) (by omega)
          rw [he]
          exact hB k (Nat.le_refl k) (by omega)
        · have he : (listSwap arr k j).getD idx 0 = arr.getD idx 0 :=
            listSwap_getD_other arr k j idx (by omega) (by omega)
          rw [he]
          exact hB idx (by omega) (by omega)
    · simp only [if_neg hle]
      refine ih arr k (j + 1) high (by omega) (by omega) (by omega) (by omega) hlen hp hA ?_
      intro idx hk hi
      by_cases hij : idx = j
      · subst hij
        omega
      · exact hB idx hk (by omega)

theorem partLoop_post (arr : List Int) (pivot : Int) (low k j high : Nat)
    (hlk : low ≤ k) (hkj : k ≤ j) (hjh : j ≤ high) (hlen : high < arr.length)
    (hp : arr.getD high 0 = pivot)
    (hA : ∀ idx, low ≤ idx → idx < k → arr.getD idx 0 ≤ pivot)
    (hB : ∀ idx, k ≤ idx → idx < j → pivot < arr.getD idx 0) :
    (∀ idx, low ≤ idx → idx < (partLoop arr pivot k j high).2.1 →
        (partLoop arr pivot k j high).1.getD idx 0 ≤ pivot) ∧
    (partLoop arr pivot k j high).1.getD (partLoop arr pivot k j high).2.1 0 = pivot ∧
    (∀ idx, (partLoop arr pivot k j high).2.1 < idx → idx ≤ high →
        pivot < (partLoop arr pivot k j high).1.getD idx 0) :=
  partLoop_post_aux pivot low (high - j) arr k j high rfl hlk hkj hjh hlen hp hA hB

theorem partLoop_provenance_aux (pivot : Int) :
    ∀ (n : Nat) (arr : List Int) (k j high : Nat), high - j = n →
    k ≤ j → j ≤ high → high < arr.length →
    ∀ idx, k ≤ idx → idx ≤ high →
    ∃ idx2, k ≤ idx2 ∧ idx2 ≤ high ∧
      (partLoop arr pivot k j high).1.getD idx 0 = arr.getD idx2 0 := by
  intro n
  induction n with
  | zero =>
    intro arr k j high hn hkj hjh hlen idx hk hi
    rw [partLoop.eq_def]
    simp only [dif_neg (show ¬ j < high by omega)]
    by_cases hik : idx = k
    · subst hik
      exact ⟨high, by omega, Nat.le_refl _,
        listSwap_getD_fst arr idx high (by omega) hlen⟩
    · by_cases hih : idx = high
      · subst hih
        exact ⟨k, Nat.le_refl _, by omega,
          listSwap_getD_snd arr k idx (by omega) hlen⟩
      · exact ⟨idx, hk, hi, listSwap_getD_other arr k high idx (by omega) (by omega)⟩
  | succ n ih =>
    intro arr k j high hn hkj hjh hlen idx hk hi
    have hlt : j < high := by omega
    rw [partLoop.eq_def]
    simp only [dif_pos hlt]
    by_cases hle : arr.getD j 0 ≤ pivot
    · simp only [if_pos hle]
      by_cases hik : idx = k
      · subst hik
        have hu : (partLoop (listSwap arr idx j) pivot (idx + 1) (j + 1) high).1.getD idx 0
            = (listSwap arr idx j).getD idx 0 :=
          partLoop_untouched (listSwap arr idx j) pivot (idx + 1) (j + 1) high
            (by omega) (by omega) idx (by omega)
        rw [hu, listSwap_getD_fst arr idx j (by omega) (by omega)]
        exact ⟨j, by omega, by omega, rfl⟩
      · obtain ⟨idx2, h1, h2, h3⟩ := ih (listSwap arr k j) (k + 1) (j + 1) high (by omega)
          (by omega) (by omega) (by rw [listSwap_length]; exact hlen) idx (by omega) hi
        by_cases hj2 : idx2 = j
        · subst hj2
          rw [listSwap_getD_snd arr k idx2 (by omega) (by omega)] at h3
          exact ⟨k, Nat.le_refl _, by omega, h3⟩
        · by_cases hk2 : idx2 = k
          · omega
          · rw [listSwap_getD_other arr k j idx2 (by omega) (by omega)] at h3
            exact ⟨idx2, by omega, h2, h3⟩
    · simp only [if_neg hle]
      exact ih arr k (j + 1) high (by omega) (by omega) (by omega) hlen idx hk hi

theorem partLoop_provenance (arr : List Int) (pivot : Int) (k j high : Nat)
    (hkj : k ≤ j) (hjh : j ≤ high) (hlen : high < arr.length)
    (idx : Nat) (hk : k ≤ idx) (hi : idx ≤ high) :
    ∃ idx2, k ≤ idx2 ∧ idx2 ≤ high ∧
      (partLoop arr pivot k j high).1.getD idx 0 = arr.getD idx2 0 :=
  partLoop_provenance_aux pivot (high - j) arr k j high rfl hkj hjh hlen idx hk hi


/-!
Quicksort recursion invariants.
-/


theorem qs_id_of_not_lt (arr : List Int) (low high : Nat) (h : ¬ low < high) :
    quicksortTrace arr low high = (arr, []) := by
  rw [quicksortTrace.eq_def]
  simp only [dif_neg h]

theorem qs_length_aux : ∀ (n : Nat) (arr : List Int) (low high : Nat),
    high + 1 - low ≤ n →
    (quicksortTrace arr low high).1.length = arr.length := by
  intro n
  induction n with
  | zero =>
    intro arr low high hn
    rw [qs_id_of_not_lt arr low high (by omega)]
  | succ n ih =>
    intro arr low high hn
    by_cases hlh : low < high
    · have hb := partitionTrace_k_bounds arr low high (arr.getD high 0) (Nat.le_of_lt hlh)
      have hplen := partLoop_length arr (arr.getD high 0) low low high
      rw [quicksortTrace.eq_def]
      simp only [dif_pos hlh]
      have h1 := ih (partitionTrace arr low high (arr.getD high 0)).1 low
        ((partitionTrace arr low high (arr.getD high 0)).2.1 - 1) (by omega)
      have h2 := ih (quicksortTrace (partitionTrace arr low high (arr.getD high 0)).1 low
          ((partitionTrace arr low high (arr.getD high 0)).2.1 - 1)).1
        ((partitionTrace arr low high (arr.getD high 0)).2.1 + 1) high (by omega)
      rw [h2, h1]
      exact hplen
    · rw [qs_id_of_not_lt arr low high hlh]

theorem qs_length (arr : List Int) (low high : Nat) :
    (quicksortTrace arr low high).1.length = arr.length :=
  qs_length_aux (high + 1 - low) arr low high (Nat.le_refl _)

theorem qs_untouched_aux : ∀ (n : Nat) (arr : List Int) (low high : Nat),
    high + 1 - low ≤ n →
    ∀ idx, (idx < low ∨ high < idx ∨ high ≤ low) →
    (quicksortTrace arr low high).1.getD idx 0 = arr.getD idx 0 := by
  intro n
  induction n with
  | zero =>
    intro arr low high hn idx hidx
    rw [qs_id_of_not_lt arr low high (by omega)]
  | succ n ih =>
    intro arr low high hn idx hidx
    by_cases hlh : low < high
    · have hb := partitionTrace_k_bounds arr low high (arr.getD high 0) (Nat.le_of_lt hlh)
      rw [quicksortTrace.eq_def]
      simp only [dif_pos hlh]
      have h2 := ih (quicksortTrace (partitionTrace arr low high (arr.getD high 0)).1 low
          ((partitionTrace arr low high (arr.getD high 0)).2.1 - 1)).1
        ((partitionTrace arr low high (arr.getD high 0)).2.1 + 1) high (by omega) idx
        (by omega)
      have h1 := ih (partitionTrace arr low high (arr.getD high 0)).1 low
        ((partitionTrace arr low high (arr.getD high 0)).2.1 - 1) (by omega) idx
        (by omega)
      have h0 := partLoop_untouched arr (arr.getD high 0) low low high (Nat.le_refl _)
        (Nat.le_of_lt hlh) idx (by omega)
      rw [h2, h1]
      exact h0
    · rw [qs_id_of_not_lt arr low high hlh]

theorem qs_untouched (arr : List Int) (low high : Nat) (idx : Nat)
    (hidx : idx < low ∨ high < idx ∨ high ≤ low) :
    (quicksortTrace arr low high).1.getD idx 0 = arr.getD idx 0 :=
  qs_untouched_aux (high + 1 - low) arr low high (Nat.le_refl _) idx hidx




theorem qs_perm_aux : ∀ (n : Nat) (arr : List Int) (low high : Nat),
    high + 1 - low ≤ n → high < arr.length →
    (quicksortTrace arr low high).1.Perm arr := by
  intro n
  induction n with
  | zero =>
    intro arr low high hn hlen
    rw [qs_id_of_not_lt arr low high (by omega)]
  | succ n ih =>
    intro arr low high hn hlen
    by_cases hlh : low < high
    · have hb := partitionTrace_k_bounds arr low high (arr.getD high 0) (Nat.le_of_lt hlh)
      have hplen : (partitionTrace arr low high (arr.getD high 0)).1.length = arr.length :=
        partLoop_length arr (arr.getD high 0) low low high
      have hq1len := qs_length (partitionTrace arr low high (arr.getD high 0)).1 low
        ((partitionTrace arr low high (arr.getD high 0)).2.1 - 1)
      rw [quicksortTrace.eq_def]
      simp only [dif_pos hlh]
      have h0 : (partitionTrace arr low high (arr.getD high 0)).1.Perm arr :=
        partLoop_perm arr (arr.getD high 0) low low high (Nat.le_refl _)
          (Nat.le_of_lt hlh) hlen
      have h1 := ih (partitionTrace arr low high (arr.getD high 0)).1 low
        ((partitionTrace arr low high (arr.getD high 0)).2.1 - 1) (by omega) (by omega)
      have h2 := ih (quicksortTrace (partitionTrace arr low high (arr.getD high 0)).1 low
          ((partitionTrace arr low high (arr.getD high 0)).2.1 - 1)).1
        ((partitionTrace arr low high (arr.getD high 0)).2.1 + 1) high (by omega)
        (by omega)
      exact (h2.trans h1).trans h0
    · rw [qs_id_of_not_lt arr low high hlh]

theorem qs_perm (arr : List Int) (low high : Nat) (hlen : high < arr.length) :
    (quicksortTrace arr low high).1.Perm arr :=
  qs_perm_aux (high + 1 - low) arr low high (Nat.le_refl _) hlen

theorem qs_provenance_aux : ∀ (n : Nat) (arr : List Int) (low high : Nat),
    high + 1 - low ≤ n → high < arr.length →
    ∀ idx, low ≤ idx → idx ≤ high →
    ∃ idx2, low ≤ idx2 ∧ idx2 ≤ high ∧
      (quicksortTrace arr low high).1.getD idx 0 = arr.getD idx2 0 := by
  intro n
  induction n with
  | zero =>
    intro arr low high hn hlen idx h1 h2
    rw [qs_id_of_not_lt arr low high (by omega)]
    exact ⟨idx, h1, h2, rfl⟩
  | succ n ih =>
    intro arr low high hn hlen idx hlow hhigh
    by_cases hlh : low < high
    · have hb := partitionTrace_k_bounds arr low high (arr.getD high 0) (Nat.le_of_lt hlh)
      have hplen : (partitionTrace arr low high (arr.getD high 0)).1.length = arr.length :=
        partLoop_length arr (arr.getD high 0) low low high
      have hq1len := qs_length (partitionTrace arr low high (arr.getD high 0)).1 low
        ((partitionTrace arr low high (arr.getD high 0)).2.1 - 1)
      rw [quicksortTrace.eq_def]
      simp only [dif_pos hlh]
      rcases Nat.lt_trichotomy idx (partitionTrace arr low high (arr.getD high 0)).2.1
        with hc | hc | hc
      · -- idx strictly left of the pivot position
        have hu2 := qs_untouched (quicksortTrace
            (partitionTrace arr low high (arr.getD high 0)).1 low
            ((partitionTrace arr low high (arr.getD high 0)).2.1 - 1)).1
          ((partitionTrace arr low high (arr.getD high 0)).2.1 + 1) high idx (by omega)
        rw [hu2]
        obtain ⟨a, ha1, ha2, ha3⟩ := ih (partitionTrace arr low high (arr.getD high 0)).1
          low ((partitionTrace arr low high (arr.getD high 0)).2.1 - 1) (by omega)
          (by omega) idx hlow (by omega)
        rw [ha3]
        obtain ⟨b, hb1, hb2, hb3⟩ := partLoop_provenance arr (arr.getD high 0) low low
          high (Nat.le_refl _) (Nat.le_of_lt hlh) hlen a ha1 (by omega)
        exact ⟨b, hb1, hb2, hb3⟩
      · -- idx at the pivot position
        have hu2 := qs_untouched (quicksortTrace
            (partitionTrace arr low high (arr.getD high 0)).1 low
            ((partitionTrace arr low high (arr.getD high 0)).2.1 - 1)).1
          ((partitionTrace arr low high (arr.getD high 0)).2.1 + 1) high idx (by omega)
        have hu1 := qs_untouched (partitionTrace arr low high (arr.getD high 0)).1 low
          ((partitionTrace arr low high (arr.getD high 0)).2.1 - 1) idx (by omega)
        rw [hu2, hu1]
        obtain ⟨b, hb1, hb2, hb3⟩ := partLoop_provenance arr (arr.getD high 0) low low
          high (Nat.le_refl _) (Nat.le_of_lt hlh) hlen idx (by omega) hhigh
        exact ⟨b, hb1, hb2, hb3⟩
      · -- idx strictly right of the pivot position
        obtain ⟨a, ha1, ha2, ha3⟩ := ih (quicksortTrace
            (partitionTrace arr low high (arr.getD high 0)).1 low
            ((partitionTrace arr low high (arr.getD high 0)).2.1 - 1)).1
          ((partitionTrace arr low high (arr.getD high 0)).2.1 + 1) high (by omega)
          (by omega) idx (by omega) hhigh
        rw [ha3]
        have hu1 := qs_untouched (partitionTrace arr low high (arr.getD high 0)).1 low
          ((partitionTrace arr low high (arr.getD high 0)).2.1 - 1) a (by omega)
        rw [hu1]
        obtain ⟨b, hb1, hb2, hb3⟩ := partLoop_provenance arr (arr.getD high 0) low low
          high (Nat.le_refl _) (Nat.le_of_lt hlh) hlen a (by omega) ha2
        exact ⟨b, hb1, hb2, hb3⟩
    · rw [qs_id_of_not_lt arr low high hlh]
      exact ⟨idx, hlow, hhigh, rfl⟩

theorem qs_provenance (arr : List Int) (low high : Nat) (hlen : high < arr.length)
    (idx : Nat) (h1 : low ≤ idx) (h2 : idx ≤ high) :
    ∃ idx2, low ≤ idx2 ∧ idx2 ≤ high ∧
      (quicksortTrace arr low high).1.getD idx 0 = arr.getD idx2 0 :=
  qs_provenance_aux (high + 1 - low) arr low high (Nat.le_refl _) hlen idx h1 h2




/-- Sortedness of the index segment from low to high of a list, stated
through default-zero indexing. -/
def SortedSeg (l : List Int) (low high : Nat) : Prop :=
  ∀ i j, low ≤ i → i ≤ j → j ≤ high → l.getD i 0 ≤ l.getD j 0

theorem qs_sortedSeg_aux : ∀ (n : Nat) (arr : List Int) (low high : Nat),
    high + 1 - low ≤ n → high < arr.length →
    SortedSeg (quicksortTrace arr low high).1 low high := by
  intro n
  induction n with
  | zero =>
    intro arr low high hn hlen i j hi hij hjh
    have hij2 : i = j := by omega
    rw [hij2]
  | succ n ih =>
    intro arr low high hn hlen
    by_cases hlh : low < high
    · have hb := partitionTrace_k_bounds arr low high (arr.getD high 0) (Nat.le_of_lt hlh)
      have hplen : (partitionTrace arr low high (arr.getD high 0)).1.length = arr.length :=
        partLoop_length arr (arr.getD high 0) low low high
      have hq1len := qs_length (partitionTrace arr low high (arr.getD high 0)).1 low
        ((partitionTrace arr low high (arr.getD high 0)).2.1 - 1)
      have hpost : (∀ idx, low ≤ idx →
            idx < (partitionTrace arr low high (arr.getD high 0)).2.1 →
            (partitionTrace arr low high (arr.getD high 0)).1.getD idx 0 ≤ arr.getD high 0) ∧
          (partitionTrace arr low high (arr.getD high 0)).1.getD
            (partitionTrace arr low high (arr.getD high 0)).2.1 0 = arr.getD high 0 ∧
          (∀ idx, (partitionTrace arr low high (arr.getD high 0)).2.1 < idx → idx ≤ high →
            arr.getD high 0 < (partitionTrace arr low high (arr.getD high 0)).1.getD idx 0) :=
        partLoop_post arr (arr.getD high 0) low low low high (Nat.le_refl _) (Nat.le_refl _)
          (Nat.le_of_lt hlh) hlen rfl (fun idx h1 h2 => absurd h2 (by omega))
          (fun idx h1 h2 => absurd h2 (by omega))
      obtain ⟨hA, hpiv, hB⟩ := hpost
      have hs1 := ih (partitionTrace arr low high (arr.getD high 0)).1 low
        ((partitionTrace arr low high (arr.getD high 0)).2.1 - 1) (by omega) (by omega)
      have hs2 := ih (quicksortTrace (partitionTrace arr low high (arr.getD high 0)).1 low
          ((partitionTrace arr low high (arr.getD high 0)).2.1 - 1)).1
        ((partitionTrace arr low high (arr.getD high 0)).2.1 + 1) high (by omega) (by omega)
      have hmain : (quicksortTrace arr low high).1 =
          (quicksortTrace (quicksortTrace (partitionTrace arr low high (arr.getD high 0)).1
            low ((partitionTrace arr low high (arr.getD high 0)).2.1 - 1)).1
            ((partitionTrace arr low high (arr.getD high 0)).2.1 + 1) high).1 := by
        rw [quicksortTrace.eq_def]
        simp only [dif_pos hlh]
      have hres_lt : ∀ idx, low ≤ idx →
          idx < (partitionTrace arr low high (arr.getD high 0)).2.1 →
          (quicksortTrace (quicksortTrace (partitionTrace arr low high (arr.getD high 0)).1
            low ((partitionTrace arr low high (arr.getD high 0)).2.1 - 1)).1
            ((partitionTrace arr low high (arr.getD high 0)).2.1 + 1) high).1.getD idx 0
            ≤ arr.getD high 0 := by
        intro idx h1 h2
        have hu2 := qs_untouched (quicksortTrace
            (partitionTrace arr low high (arr.getD high 0)).1 low
            ((partitionTrace arr low high (arr.getD high 0)).2.1 - 1)).1
          ((partitionTrace arr low high (arr.getD high 0)).2.1 + 1) high idx (by omega)
        rw [hu2]
        obtain ⟨a, ha1, ha2, ha3⟩ := qs_provenance
          (partitionTrace arr low high (arr.getD high 0)).1 low
          ((partitionTrace arr low high (arr.getD high 0)).2.1 - 1) (by omega) idx h1
          (by omega)
        rw [ha3]
        exact hA a ha1 (by omega)
      have hres_pi : (quicksortTrace (quicksortTrace
            (partitionTrace arr low high (arr.getD high 0)).1 low
            ((partitionTrace arr low high (arr.getD high 0)).2.1 - 1)).1
            ((partitionTrace arr low high (arr.getD high 0)).2.1 + 1) high).1.getD
            (partitionTrace arr low high (arr.getD high 0)).2.1 0 = arr.getD high 0 := by
        have hu2 := qs_untouched (quicksortTrace
            (partitionTrace arr low high (arr.getD high 0)).1 low
            ((partitionTrace arr low high (arr.getD high 0)).2.1 - 1)).1
          ((partitionTrace arr low high (arr.getD high 0)).2.1 + 1) high
          (partitionTrace arr low high (arr.getD high 0)).2.1 (by omega)
        have hu1 := qs_untouched (partitionTrace arr low high (arr.getD high 0)).1 low
          ((partitionTrace arr low high (arr.getD high 0)).2.1 - 1)
          (partitionTrace arr low high (arr.getD high 0)).2.1 (by omega)
        rw [hu2, hu1]
        exact hpiv
      have hres_gt : ∀ idx, (partitionTrace arr low high (arr.getD high 0)).2.1 < idx →
          idx ≤ high →
          arr.getD high 0 < (quicksortTrace (quicksortTrace
            (partitionTrace arr low high (arr.getD high 0)).1 low
            ((partitionTrace arr low high (arr.getD high 0)).2.1 - 1)).1
            ((partitionTrace arr low high (arr.getD high 0)).2.1 + 1) high).1.getD idx 0 := by
        intro idx h1 h2
        obtain ⟨a, ha1, ha2, ha3⟩ := qs_provenance (quicksortTrace
            (partitionTrace arr low high (arr.getD high 0)).1 low
            ((partitionTrace arr low high (arr.getD high 0)).2.1 - 1)).1
          ((partitionTrace arr low high (arr.getD high 0)).2.1 + 1) high (by omega) idx h1 h2
        rw [ha3]
        have hu1 := qs_untouched (partitionTrace arr low high (arr.getD high 0)).1 low
          ((partitionTrace arr low high (arr.getD high 0)).2.1 - 1) a (by omega)
        rw [hu1]
        exact hB a (by omega) ha2
      intro i j hi hij hjh2
      rw [hmain]
      by_cases hcj : j < (partitionTrace arr low high (arr.getD high 0)).2.1
      · have hu2i := qs_untouched (quicksortTrace
            (partitionTrace arr low high (arr.getD high 0)).1 low
            ((partitionTrace arr low high (arr.getD high 0)).2.1 - 1)).1
          ((partitionTrace arr low high (arr.getD high 0)).2.1 + 1) high i (by omega)
        have hu2j := qs_untouched (quicksortTrace
            (partitionTrace arr low high (arr.getD high 0)).1 low
            ((partitionTrace arr low high (arr.getD high 0)).2.1 - 1)).1
          ((partitionTrace arr low high (arr.getD high 0)).2.1 + 1) high j (by omega)
        rw [hu2i, hu2j]
        exact hs1 i j hi hij (by omega)
      · by_cases hcj2 : j = (partitionTrace arr low high (arr.getD high 0)).2.1
        · by_cases hci : i < (partitionTrace arr low high (arr.getD high 0)).2.1
          · have h1 := hres_lt i hi hci
            rw [hcj2, hres_pi]
            exact h1
          · have hieq : i = j := by omega
            rw [hieq]
        · have hcjgt : (partitionTrace arr low high (arr.getD high 0)).2.1 < j := by omega
          by_cases hci : i < (partitionTrace arr low high (arr.getD high 0)).2.1
          · have h1 := hres_lt i hi hci
            have h2 := hres_gt j hcjgt hjh2
            omega
          · by_cases hci2 : i = (partitionTrace arr low high (arr.getD high 0)).2.1
            · have h2 := hres_gt j hcjgt hjh2
              rw [hci2, hres_pi]
              omega
            · exact hs2 i j (by omega) hij hjh2
    · intro i j hi hij hjh2
      have hij2 : i = j := by omega
      rw [hij2]

theorem qs_sortedSeg (arr : List Int) (low high : Nat) (hlen : high < arr.length) :
    SortedSeg (quicksortTrace arr low high).1 low high :=
  qs_sortedSeg_aux (high + 1 - low) arr low high (Nat.le_refl _) hlen




/-- C9: the client quicksortTrace, the in-place Lomuto partition quicksort
with the comparison arr j at most pivot, returns an array that is a sorted
permutation of its input for every input integer array; no element,
including elements equal to a pivot, is dropped. -/
theorem quicksort_client_sorted_perm (arr : List Int) :
    (quicksortTrace arr 0 (arr.length - 1)).1.Perm arr ∧
    (quicksortTrace arr 0 (arr.length - 1)).1.Sorted (· ≤ ·) := by
  by_cases harr : arr = []
  · subst harr
    rw [qs_id_of_not_lt _ _ _ (by simp)]
    exact ⟨List.Perm.refl _, List.sorted_nil⟩
  · have hpos : 0 < arr.length := List.length_pos.mpr harr
    have hlen : arr.length - 1 < arr.length := by omega
    refine ⟨qs_perm arr 0 (arr.length - 1) hlen, ?_⟩
    have hs := qs_sortedSeg arr 0 (arr.length - 1) hlen
    have hq := qs_length arr 0 (arr.length - 1)
    apply List.pairwise_iff_getElem.mpr
    intro i j hi hj hij
    have hres := hs i j (by omega) (by omega) (by omega)
    rw [getD_def_eq hi, getD_def_eq hj] at hres
    exact hres




/-- C1: the server sorting trace generator, with no extractable array, no
caller input and the default last-element pivot strategy, runs on the default
array and reports pivot value 13; the left partition holds exactly the input
elements strictly below 13 and the right partition exactly those strictly
above 13 (with multiplicity), the value 13 itself lands in neither; and the
final COMPLETE step carries sorted-left, then the pivot, then sorted-right,
which is the fully sorted array. -/
theorem server_sorting_trace_default :
    serverPivotValue [] none = 13 ∧
    (∀ x : Int, (realPartition defaultSortArray 13).1.count x =
        if x < 13 then defaultSortArray.count x else 0) ∧
    (∀ x : Int, (realPartition defaultSortArray 13).2.count x =
        if 13 < x then defaultSortArray.count x else 0) ∧
    (13 : Int) ∉ (realPartition defaultSortArray 13).1 ∧
    (13 : Int) ∉ (realPartition defaultSortArray 13).2 ∧
    (generateSortingTraceSteps [] none).getLast? = some
      ⟨"COMPLETE",
       jsSortAsc (realPartition defaultSortArray 13).1 ++
         13 :: jsSortAsc (realPartition defaultSortArray 13).2, none⟩ ∧
    jsSortAsc (realPartition defaultSortArray 13).1 ++
      13 :: jsSortAsc (realPartition defaultSortArray 13).2
      = [4, 7, 11, 12, 13, 15, 16, 18, 19] := by
  refine ⟨by decide, ?_, ?_, by decide, by decide, by decide, by decide⟩
  · intro x
    show (defaultSortArray.filter (fun y => decide (y < 13))).count x = _
    by_cases hx : x < 13
    · rw [if_pos hx]
      exact List.count_filter (by simpa using hx)
    · rw [if_neg hx]
      refine List.count_eq_zero.mpr ?_
      intro hmem
      rcases List.mem_filter.mp hmem with ⟨h1, h2⟩
      simp at h2
      omega
  · intro x
    show (defaultSortArray.filter (fun y => decide (y > 13))).count x = _
    by_cases hx : (13 : Int) < x
    · rw [if_pos hx]
      exact List.count_filter (by simpa using hx)
    · rw [if_neg hx]
      refine List.count_eq_zero.mpr ?_
      intro hmem
      rcases List.mem_filter.mp hmem with ⟨h1, h2⟩
      simp at h2
      omega




/-- Step-cursor navigation handler of the home page: move forward while
strictly below the last index, move backward while strictly above zero,
otherwise leave the cursor unchanged.  The guard comparing against the last
index uses steps.length minus one, as the source does. -/
def handleStep (numSteps : Nat) (direction : String) (currentStep : Int) : Int :=
  if direction = "forward" ∧ currentStep < (numSteps : Int) - 1 then currentStep + 1
  else if direction = "backward" ∧ currentStep > 0 then currentStep - 1
  else currentStep

theorem handleStep_single (n : Nat) (d : String) (c : Int)
    (h0 : 0 ≤ c) (h1 : c ≤ (n : Int) - 1) :
    0 ≤ handleStep n d c ∧ handleStep n d c ≤ (n : Int) - 1 := by
  unfold handleStep
  split_ifs with ha hb <;> omega

/-- C8: over a materialized step list the cursor stays within zero and
steps.length minus one under every sequence of forward and backward steps,
and the boundary moves are no-ops: stepping backward at index zero and
stepping forward at the last index leave the cursor unchanged. -/
theorem step_cursor_in_bounds :
    (∀ (numSteps : Nat) (dirs : List String) (c : Int),
       0 ≤ c → c ≤ (numSteps : Int) - 1 →
       0 ≤ dirs.foldl (fun cur d => handleStep numSteps d cur) c ∧
       dirs.foldl (fun cur d => handleStep numSteps d cur) c ≤ (numSteps : Int) - 1) ∧
    (∀ numSteps : Nat, handleStep numSteps "backward" 0 = 0) ∧
    (∀ numSteps : Nat,
       handleStep numSteps "forward" ((numSteps : Int) - 1) = (numSteps : Int) - 1) := by
  refine ⟨?_, ?_, ?_⟩
  · intro numSteps dirs
    induction dirs with
    | nil => intro c h0 h1; exact ⟨h0, h1⟩
    | cons d rest ih =>
      intro c h0 h1
      have hs := handleStep_single numSteps d c h0 h1
      exact ih (handleStep numSteps d c) hs.1 hs.2
  · intro numSteps
    simp [handleStep]
  · intro numSteps
    simp [handleStep]

/-- Witness for C8 with three steps and a concrete move sequence. -/
theorem step_cursor_in_bounds_witness :
    (0 ≤ ["backward", "forward", "forward", "forward"].foldl
        (fun cur d => handleStep 3 d cur) 0 ∧
     ["backward", "forward", "forward", "forward"].foldl
        (fun cur d => handleStep 3 d cur) 0 ≤ (3 : Int) - 1) ∧
    handleStep 3 "backward" 0 = 0 ∧
    handleStep 3 "forward" ((3 : Int) - 1) = (3 : Int) - 1 :=
  ⟨step_cursor_in_bounds.1 3 ["backward", "forward", "forward", "forward"] 0
     (by decide) (by decide),
   step_cursor_in_bounds.2.1 3, step_cursor_in_bounds.2.2 3⟩




theorem replayClientQueue_length (ops : List QueueOp) (q : List Int)
    (h : QueueOp.enqueue none ∉ ops) :
    (replayClientQueue ops q).2.length = ops.length := by
  induction ops generalizing q with
  | nil => rfl
  | cons op rest ih =>
    match op with
    | QueueOp.enqueue (some n) =>
      simp only [replayClientQueue, List.length_cons]
      rw [ih (q ++ [(n : Int)]) (fun hm => h (List.mem_cons_of_mem _ hm))]
    | QueueOp.enqueue none =>
      exact absurd (List.mem_cons_self _ _) h
    | QueueOp.dequeue =>
      simp only [replayClientQueue, List.length_cons]
      rw [ih q.tail (fun hm => h (List.mem_cons_of_mem _ hm))]

theorem queueFold_wf : ∀ (lines : List (List Char)) (acc : List QueueOp),
    QueueOp.enqueue none ∉ acc →
    QueueOp.enqueue none ∉ lines.foldl
      (fun acc line =>
        if charsContain line "enqueue".toList then
          match scanEnqueue line with
          | some v => acc ++ [QueueOp.enqueue (some v)]
          | none => acc
        else if charsContain line "dequeue".toList then acc ++ [QueueOp.dequeue]
        else acc)
      acc := by
  intro lines
  induction lines with
  | nil => intro acc h; exact h
  | cons line rest ih =>
    intro acc h
    simp only [List.foldl_cons]
    apply ih
    by_cases h1 : charsContain line "enqueue".toList
    · simp only [if_pos h1]
      match hs : scanEnqueue line with
      | some v =>
        intro hm
        rcases List.mem_append.mp hm with hm2 | hm2
        · exact h hm2
        · simp at hm2
      | none => exact h
    · simp only [if_neg h1]
      by_cases h2 : charsContain line "dequeue".toList
      · simp only [if_pos h2]
        intro hm
        rcases List.mem_append.mp hm with hm2 | hm2
        · exact h hm2
        · simp at hm2
      · simp only [if_neg h2]
        exact h

theorem extractQueueOperations_wf (cs : List Char) :
    QueueOp.enqueue none ∉ extractQueueOperations cs := by
  unfold extractQueueOperations
  split
  · exact queueFold_wf (splitLines cs) [] (by simp)
  · decide

/-- C6 is false as stated: for the source text queue the client tracer
succeeds with a complexity record whose operation count is 4 while the step
list has 5 entries (the program-initialization step plus one step per
replayed default operation). -/
theorem operations_equals_steps_cex :
    (traceClient "queue").success = true ∧ (traceClient "queue").operations = 4 ∧
    (traceClient "queue").steps.length = 5 := by
  decide

/-- C6 (amended): the server execution wrapper always reports operations
equal to the produced step count, and so does the client tracer for every
category except queue; the client queue tracer reports the number of
replayed operations, which is exactly one less than its step count because
of the leading initialization step. -/
theorem operations_equals_steps_amended :
    (∀ (code : List Char) (inputArr : Option (List Int))
       (inputSearch : Option (List Int × Int)),
       (generateEnhancedExecution code inputArr inputSearch).operations =
       (generateEnhancedExecution code inputArr inputSearch).steps.length) ∧
    (∀ code : String, detectAlgorithmTypeClient code.toList ≠ "queue" →
       (traceClient code).operations = (traceClient code).steps.length) ∧
    (∀ code : String, detectAlgorithmTypeClient code.toList = "queue" →
       (traceClient code).operations + 1 = (traceClient code).steps.length) := by
  refine ⟨?_, ?_, ?_⟩
  · intro code inputArr inputSearch
    rfl
  · intro code h
    unfold traceClient
    dsimp only
    by_cases h1 : detectAlgorithmTypeClient code.toList = "sorting"
    · rw [if_pos h1]
      rfl
    · rw [if_neg h1]
      by_cases h2 : detectAlgorithmTypeClient code.toList = "searching"
      · rw [if_pos h2]
        rfl
      · rw [if_neg h2, if_neg h]
        rfl
  · intro code h
    have h1 : ¬ detectAlgorithmTypeClient code.toList = "sorting" := by rw [h]; decide
    have h2 : ¬ detectAlgorithmTypeClient code.toList = "searching" := by rw [h]; decide
    unfold traceClient
    dsimp only
    rw [if_neg h1, if_neg h2, if_pos h]
    have hr := replayClientQueue_length (extractQueueOperations code.toList) []
      (extractQueueOperations_wf code.toList)
    show (extractQueueOperations code.toList).length + 1 =
      (initStep :: (replayClientQueue (extractQueueOperations code.toList) []).2).length
    rw [List.length_cons, hr]

/-- Witness for the amended C6 at concrete inputs of each kind. -/
theorem operations_equals_steps_amended_witness :
    (generateEnhancedExecution "".toList none none).operations =
      (generateEnhancedExecution "".toList none none).steps.length ∧
    (traceClient "x").operations = (traceClient "x").steps.length ∧
    (traceClient "queue").operations + 1 = (traceClient "queue").steps.length :=
  ⟨operations_equals_steps_amended.1 "".toList none none,
   operations_equals_steps_amended.2.1 "x" (by decide),
   operations_equals_steps_amended.2.2 "queue" (by decide)⟩




/-- C4 is false as stated for the server generator: on a source text whose
only line is queue.enqueue(5) the regex line scan extracts the operation
enqueue 5, yet the server queue generator replays its hard-coded default
sequence: its first operation step enqueues 10, and four operation steps
follow the initialization step. -/
theorem queue_generator_ignores_source_cex :
    extractQueueOperations "queue.enqueue(5)".toList = [QueueOp.enqueue (some 5)] ∧
    (generateQueueTraceSteps (splitLines "queue.enqueue(5)".toList)).map Step.action =
      ["INIT", "ENQUEUE", "ENQUEUE", "DEQUEUE", "ENQUEUE"] ∧
    (generateQueueTraceSteps (splitLines "queue.enqueue(5)".toList))[1]? =
      some ⟨"ENQUEUE", [10], some 10⟩ := by
  decide

/-- C4 (amended): the client queue tracer extracts enqueue and dequeue
operations by a regex line scan and substitutes the fixed default sequence
enqueue 10, enqueue 20, dequeue, enqueue 30 when none are found, replaying
FIFO semantics with one step per operation; the server queue generator
always replays that same fixed sequence regardless of the source text.  For
the default sequence the final queue state is 20, 30 in both variants. -/
theorem queue_trace_amended :
    (∀ cs : List Char, extractQueueOperationsRaw cs = [] →
       extractQueueOperations cs = defaultQueueOps) ∧
    (∀ cs : List Char,
       (replayClientQueue (extractQueueOperations cs) []).2.length =
         (extractQueueOperations cs).length) ∧
    (replayClientQueue defaultQueueOps []).1 = [20, 30] ∧
    (∀ lines : List (List Char),
       generateQueueTraceSteps lines =
         ⟨"INIT", [], none⟩ :: (replayServerQueue serverQueueOps []).2) ∧
    (replayServerQueue serverQueueOps []).1 = [20, 30] ∧
    (replayServerQueue serverQueueOps []).2.length = serverQueueOps.length := by
  refine ⟨?_, ?_, by decide, fun lines => rfl, by decide, by decide⟩
  · intro cs h
    unfold extractQueueOperations
    rw [h]
    simp
  · intro cs
    exact replayClientQueue_length (extractQueueOperations cs) []
      (extractQueueOperations_wf cs)

/-- Witness for the amended C4: a source with no queue calls falls back to
the default sequence, one step per operation, final state 20 then 30. -/
theorem queue_trace_amended_witness :
    extractQueueOperations "x".toList = defaultQueueOps ∧
    (replayClientQueue (extractQueueOperations "x".toList) []).2.length =
      (extractQueueOperations "x".toList).length ∧
    (replayClientQueue defaultQueueOps []).1 = [20, 30] :=
  ⟨queue_trace_amended.1 "x".toList (by decide),
   queue_trace_amended.2.1 "x".toList,
   queue_trace_amended.2.2.1⟩

/-- C5 is false as stated: searching the default array for target 4 does
terminate not found, but the emitted trace has no final found-or-not-found
step: its last step is the SEARCH_LEFT branch step of the final iteration,
and no step with a FOUND action (or any not-found action) occurs. -/
theorem search_target4_no_final_step_cex :
    (generateSearchingTraceSteps (some ([1, 3, 5, 7, 9, 11, 13, 15], 4))).2 =
      (false, -1) ∧
    ((generateSearchingTraceSteps (some ([1, 3, 5, 7, 9, 11, 13, 15], 4))).1.map
      Step.action).getLast? = some "SEARCH_LEFT" ∧
    ((generateSearchingTraceSteps (some ([1, 3, 5, 7, 9, 11, 13, 15], 4))).1.map
      Step.action).count "FOUND" = 0 := by
  decide

/-- C5 (amended): binary-search trace generation over the array
1,3,5,7,9,11,13,15 with target 4 exhausts the bounds and terminates with
found false and found index minus one in both variants, emitting a
mid-calculation step and a branch step per iteration (three iterations
here; the server loop is additionally bounded by its step counter); a FOUND
step would be emitted only in the found case, and no final not-found step
is emitted. -/
theorem search_target4_amended :
    (generateSearchingTraceSteps (some ([1, 3, 5, 7, 9, 11, 13, 15], 4))).2 =
      (false, -1) ∧
    ((generateSearchingTraceSteps (some ([1, 3, 5, 7, 9, 11, 13, 15], 4))).1.map
      Step.action) =
      ["INIT", "CALCULATE_MID", "SEARCH_LEFT", "CALCULATE_MID", "SEARCH_RIGHT",
       "CALCULATE_MID", "SEARCH_LEFT"] ∧
    (searchLoopClient [1, 3, 5, 7, 9, 11, 13, 15] 4 0 7).2 = (false, -1) ∧
    ((searchLoopClient [1, 3, 5, 7, 9, 11, 13, 15] 4 0 7).1.map Step.action) =
      ["CALCULATE_MID", "SEARCH_LEFT", "CALCULATE_MID", "SEARCH_RIGHT",
       "CALCULATE_MID", "SEARCH_LEFT"] := by
  refine ⟨by decide, by decide, ?_, ?_⟩
  · simp +decide [searchLoopClient.eq_def]
  · simp +decide [searchLoopClient.eq_def]




/-- C7: the client trace pipeline is total: for every source text it
succeeds with a nonempty step list (the embedding is a total function, by
construction, every operation on every dispatch path being total, which is
what never-raises means here); and unparsable literals fall back to the
hard-coded defaults: with no extractable array the sorting and searching
tracers use their default arrays, with no extractable target the searching
tracer uses 7, and with no extracted queue operations the queue tracer uses
the default operation sequence. -/
theorem trace_never_raises :
    (∀ code : String, (traceClient code).success = true ∧ (traceClient code).steps ≠ []) ∧
    (∀ cs : List Char, extractArrayFromCode cs = none →
       clientSortingArray cs = defaultSortArray ∧
       clientSearchArray cs = defaultSearchArray) ∧
    (∀ cs : List Char, extractTargetFromCode cs = none → clientSearchTarget cs = 7) ∧
    (∀ cs : List Char, extractQueueOperationsRaw cs = [] →
       extractQueueOperations cs = defaultQueueOps) := by
  refine ⟨?_, ?_, ?_, ?_⟩
  · intro code
    unfold traceClient
    dsimp only
    by_cases h1 : detectAlgorithmTypeClient code.toList = "sorting"
    · rw [if_pos h1]
      exact ⟨rfl, by simp [traceSortingAlgorithmClient]⟩
    · rw [if_neg h1]
      by_cases h2 : detectAlgorithmTypeClient code.toList = "searching"
      · rw [if_pos h2]
        exact ⟨rfl, by simp [traceSearchingAlgorithmClient]⟩
      · rw [if_neg h2]
        by_cases h3 : detectAlgorithmTypeClient code.toList = "queue"
        · rw [if_pos h3]
          exact ⟨rfl, by simp [traceQueueAlgorithmClient]⟩
        · rw [if_neg h3]
          exact ⟨rfl, by simp [traceGenericAlgorithmClient]⟩
  · intro cs h
    unfold clientSortingArray clientSearchArray
    rw [h]
    exact ⟨rfl, rfl⟩
  · intro cs h
    unfold clientSearchTarget
    rw [h]
    rfl
  · intro cs h
    unfold extractQueueOperations
    rw [h]
    simp

/-- Witness for C7 at the one-letter source text x, which parses to no
array, no target and no queue operations. -/
theorem trace_never_raises_witness :
    ((traceClient "x").success = true ∧ (traceClient "x").steps ≠ []) ∧
    clientSortingArray "x".toList = defaultSortArray ∧
    clientSearchTarget "x".toList = 7 ∧
    extractQueueOperations "x".toList = defaultQueueOps :=
  ⟨trace_never_raises.1 "x",
   (trace_never_raises.2.1 "x".toList (by decide)).1,
   trace_never_raises.2.2.1 "x".toList (by decide),
   trace_never_raises.2.2.2 "x".toList (by decide)⟩


/-!
Array-literal extraction: correspondence with the grammar of bracketed
integer lists (claim C10).
-/


/-- A nonempty run of decimal digit characters. -/
def IsDigitRun (cs : List Char) : Prop := cs ≠ [] ∧ ∀ c ∈ cs, isDigitChar c

/-- A possibly empty run of whitespace characters. -/
def IsWsRun (cs : List Char) : Prop := ∀ c ∈ cs, isWsChar c

/-- The body of a bracketed comma-separated list of non-negative decimal
integer literals, as claim C10 describes it: digit runs separated by commas,
each comma optionally surrounded by whitespace. -/
inductive BracketBody : List Char → Prop where
  | single (d : List Char) : IsDigitRun d → BracketBody d
  | more (d s1 s2 rest : List Char) : IsDigitRun d → IsWsRun s1 → IsWsRun s2 →
      BracketBody rest → BracketBody (d ++ (s1 ++ ',' :: (s2 ++ rest)))

/-- The source text contains a bracketed comma-separated list of
non-negative decimal integer literals. -/
def ContainsIntArrayLiteral (cs : List Char) : Prop :=
  ∃ pre body post, BracketBody body ∧ cs = pre ++ '[' :: (body ++ ']' :: post)

theorem takeDigits_decomp (cs : List Char) (acc : Nat) :
    ∃ d, (∀ c ∈ d, isDigitChar c) ∧ cs = d ++ (takeDigits cs acc).2 := by
  induction cs generalizing acc with
  | nil => exact ⟨[], by simp, rfl⟩
  | cons c cs ih =>
    by_cases hc : isDigitChar c
    · obtain ⟨d, hd, he⟩ := ih (acc * 10 + digitVal c)
      refine ⟨c :: d, ?_, ?_⟩
      · intro x hx
        rcases List.mem_cons.mp hx with h | h
        · rw [h]; exact hc
        · exact hd x h
      · simp only [takeDigits, if_pos hc]
        rw [List.cons_append, ← he]
    · exact ⟨[], by simp, by simp [takeDigits, hc]⟩

theorem parseDigits_decomp {cs rest : List Char} {n : Nat}
    (h : parseDigits cs = some (n, rest)) :
    ∃ d, IsDigitRun d ∧ cs = d ++ rest := by
  match cs with
  | [] => simp [parseDigits] at h
  | c :: cs2 =>
    simp only [parseDigits] at h
    split at h
    · obtain ⟨d, hd, he⟩ := takeDigits_decomp cs2 (digitVal c)
      have hrest : rest = (takeDigits cs2 (digitVal c)).2 := by
        cases h3 : takeDigits cs2 (digitVal c) with
        | mk v r => rw [h3] at h; cases h; rfl
      refine ⟨c :: d, ⟨by simp, ?_⟩, ?_⟩
      · intro x hx
        rcases List.mem_cons.mp hx with h2 | h2
        · rw [h2]; assumption
        · exact hd x h2
      · rw [hrest, List.cons_append, ← he]
    · cases h

theorem dropWs_decomp (cs : List Char) : ∃ s, IsWsRun s ∧ cs = s ++ dropWs cs := by
  induction cs with
  | nil => exact ⟨[], by simp [IsWsRun], rfl⟩
  | cons c cs ih =>
    by_cases hc : isWsChar c
    · obtain ⟨s, hs, he⟩ := ih
      refine ⟨c :: s, ?_, ?_⟩
      · intro x hx
        rcases List.mem_cons.mp hx with h | h
        · rw [h]; exact hc
        · exact hs x h
      · simp only [dropWs, if_pos hc]
        rw [List.cons_append, ← he]
    · exact ⟨[], by simp [IsWsRun], by simp [dropWs, hc]⟩

theorem matchArrayTailF_decomp :
    ∀ (fuel : Nat) (acc : List Nat) (cs : List Char) (l : List Nat),
    matchArrayTailF fuel acc cs = some l → ∀ d, IsDigitRun d →
    ∃ body post, BracketBody body ∧ d ++ cs = body ++ ']' :: post := by
  intro fuel
  induction fuel with
  | zero =>
    intro acc cs l h d hd
    match cs with
    | ']' :: rest => exact ⟨d, rest, BracketBody.single d hd, rfl⟩
    | [] => simp [matchArrayTailF] at h
    | c :: rest =>
      by_cases hc : c = ']'
      · subst hc
        exact ⟨d, rest, BracketBody.single d hd, rfl⟩
      · rw [matchArrayTailF.eq_2 acc (c :: rest)
          (fun tail ht => by injection ht with h1 _; exact hc h1)] at h
        cases h
  | succ fuel ih =>
    intro acc cs l h d hd
    match cs with
    | ']' :: rest => exact ⟨d, rest, BracketBody.single d hd, rfl⟩
    | [] => simp [matchArrayTailF, dropWs] at h
    | c :: rest =>
      by_cases hc : c = ']'
      · subst hc
        exact ⟨d, rest, BracketBody.single d hd, rfl⟩
      · rw [matchArrayTailF.eq_3 acc (c :: rest) fuel
          (fun tail ht => by injection ht with h1 _; exact hc h1)] at h
        split at h
        · rename_i r2 heq1
          split at h
          · rename_i n r3 heq2
            obtain ⟨s1, hs1, he1⟩ := dropWs_decomp (c :: rest)
            obtain ⟨s2, hs2, he2⟩ := dropWs_decomp r2
            obtain ⟨d2, hd2, he3⟩ := parseDigits_decomp heq2
            obtain ⟨body2, post, hb2, he4⟩ := ih (n :: acc) r3 l h d2 hd2
            refine ⟨d ++ (s1 ++ ',' :: (s2 ++ body2)), post,
              BracketBody.more d s1 s2 body2 hd hs1 hs2 hb2, ?_⟩
            have hr2 : r2 = s2 ++ (d2 ++ r3) := by rw [he2, ← he3]
            rw [he1, heq1, hr2, he4]
            simp [List.append_assoc]
          · cases h
        · cases h


end DSAHelper
namespace DSAHelper

theorem matchArrayAt_decomp {cs : List Char} {l : List Nat}
    (h : matchArrayAt cs = some l) :
    ∃ body post, BracketBody body ∧ cs = '[' :: (body ++ ']' :: post) := by
  match cs with
  | [] => simp [matchArrayAt] at h
  | c :: r1 =>
    by_cases hc : c = '['
    · subst hc
      simp only [matchArrayAt] at h
      match h2 : parseDigits r1 with
      | none => rw [h2] at h; cases h
      | some (n, r2) =>
        rw [h2] at h
        obtain ⟨d, hd, he⟩ := parseDigits_decomp h2
        obtain ⟨body, post, hb, he2⟩ := matchArrayTailF_decomp r2.length [n] r2 l h d hd
        exact ⟨body, post, hb, by rw [he, ← he2]⟩
    · rw [show matchArrayAt (c :: r1) = none by
        rw [matchArrayAt.eq_def]
        split
        · rename_i heq
          injection heq with h1 _
          exact absurd h1 hc
        · rfl] at h
      cases h

theorem scanFor_decomp {α : Type} (f : List Char → Option α) :
    ∀ (cs : List Char) (v : α), scanFor f cs = some v →
    ∃ i, f (cs.drop i) = some v ∧ ∀ i2, i2 < i → f (cs.drop i2) = none := by
  intro cs
  induction cs with
  | nil => intro v h; simp [scanFor] at h
  | cons c cs ih =>
    intro v h
    simp only [scanFor] at h
    match h1 : f (c :: cs) with
    | some w =>
      rw [h1] at h
      cases h
      exact ⟨0, h1, by omega⟩
    | none =>
      rw [h1] at h
      obtain ⟨i, hi, hlt⟩ := ih v h
      refine ⟨i + 1, hi, ?_⟩
      intro i2 h2
      match i2 with
      | 0 => exact h1
      | j + 1 => exact hlt j (by omega)

theorem scanFor_isSome_of {α : Type} (f : List Char → Option α)
    (hnil : f [] = none) :
    ∀ (cs : List Char) (i : Nat), (f (cs.drop i)).isSome → (scanFor f cs).isSome := by
  intro cs
  induction cs with
  | nil =>
    intro i h
    simp only [List.drop_nil] at h
    rw [hnil] at h
    cases h
  | cons c cs ih =>
    intro i h
    simp only [scanFor]
    match h1 : f (c :: cs) with
    | some w => simp
    | none =>
      simp only
      match i with
      | 0 => rw [List.drop_zero] at h; rw [h1] at h; cases h
      | j + 1 => exact ih j h

theorem ws_not_digit (c : Char) (h : isWsChar c) : ¬ isDigitChar c := by
  simp only [isWsChar, Bool.or_eq_true, decide_eq_true_eq] at h
  rcases h with ((((h | h) | h) | h) | h) | h <;> subst h <;> decide

theorem digit_not_ws (c : Char) (h : isDigitChar c) : ¬ isWsChar c := by
  intro hw
  exact ws_not_digit c hw h

theorem ws_ne_rbracket (c : Char) (h : isWsChar c) : c ≠ ']' := by
  simp only [isWsChar, Bool.or_eq_true, decide_eq_true_eq] at h
  rcases h with ((((h | h) | h) | h) | h) | h <;> subst h <;> decide

theorem takeDigits_run (d : List Char) (x : Char) (t : List Char)
    (hx : ¬ isDigitChar x) :
    ∀ acc, (∀ c ∈ d, isDigitChar c) →
    ∃ v, takeDigits (d ++ x :: t) acc = (v, x :: t) := by
  induction d with
  | nil =>
    intro acc _
    exact ⟨acc, by simp [takeDigits, hx]⟩
  | cons c d ih =>
    intro acc hd
    have hc : isDigitChar c := hd c (List.mem_cons_self _ _)
    obtain ⟨v, hv⟩ := ih (acc * 10 + digitVal c)
      (fun y hy => hd y (List.mem_cons_of_mem _ hy))
    exact ⟨v, by simp only [List.cons_append, takeDigits, if_pos hc]; exact hv⟩

theorem parseDigits_run (d : List Char) (x : Char) (t : List Char)
    (hd : IsDigitRun d) (hx : ¬ isDigitChar x) :
    ∃ n, parseDigits (d ++ x :: t) = some (n, x :: t) := by
  obtain ⟨hne, hall⟩ := hd
  cases d with
  | nil => exact absurd rfl hne
  | cons c d2 =>
    have hc : isDigitChar c := hall c (List.mem_cons_self _ _)
    obtain ⟨v, hv⟩ := takeDigits_run d2 x t hx (digitVal c)
      (fun y hy => hall y (List.mem_cons_of_mem _ hy))
    exact ⟨v, by simp only [List.cons_append, parseDigits, if_pos hc, hv]⟩

theorem dropWs_run (s : List Char) (x : Char) (t : List Char)
    (hs : IsWsRun s) (hx : ¬ isWsChar x) :
    dropWs (s ++ x :: t) = x :: t := by
  induction s with
  | nil => simp [dropWs, hx]
  | cons c s ih =>
    have hc : isWsChar c := hs c (List.mem_cons_self _ _)
    simp only [List.cons_append, dropWs, if_pos hc]
    exact ih (fun y hy => hs y (List.mem_cons_of_mem _ hy))

theorem bracketBody_head {body : List Char} (h : BracketBody body) :
    ∃ c t, body = c :: t ∧ isDigitChar c := by
  cases h
  case single hd =>
    obtain ⟨hne, hall⟩ := hd
    cases hbody : body with
    | nil => exact absurd hbody hne
    | cons c t =>
      refine ⟨c, t, rfl, hall c ?_⟩
      rw [hbody]; exact List.mem_cons_self _ _
  case more d s1 s2 rest hd hs1 hs2 hrest =>
    obtain ⟨hne, hall⟩ := hd
    cases d with
    | nil => exact absurd rfl hne
    | cons c t =>
      exact ⟨c, t ++ (s1 ++ ',' :: (s2 ++ rest)), by simp,
        hall c (List.mem_cons_self _ _)⟩

theorem bracketBody_parse {body : List Char} (h : BracketBody body) :
    ∀ post, ∃ n rem, parseDigits (body ++ ']' :: post) = some (n, rem) ∧
      rem.length < (body ++ ']' :: post).length ∧
      ∀ acc fuel, rem.length ≤ fuel →
        ∃ l, matchArrayTailF fuel acc rem = some l := by
  induction h with
  | single d hd =>
    intro post
    obtain ⟨n, hn⟩ := parseDigits_run d ']' post hd (by decide)
    refine ⟨n, ']' :: post, hn, ?_, ?_⟩
    · obtain ⟨hne, _⟩ := hd
      cases d with
      | nil => exact absurd rfl hne
      | cons c t => simp; omega
    · intro acc fuel _
      exact ⟨acc.reverse, matchArrayTailF.eq_1 fuel acc post⟩
  | more d s1 s2 rest hd hs1 hs2 hrest ih =>
    intro post
    have hfull : (d ++ (s1 ++ ',' :: (s2 ++ rest))) ++ ']' :: post
        = d ++ (s1 ++ ',' :: (s2 ++ (rest ++ ']' :: post))) := by
      simp [List.append_assoc]
    have hhead : ∃ x t, s1 ++ ',' :: (s2 ++ (rest ++ ']' :: post)) = x :: t ∧
        ¬ isDigitChar x := by
      cases s1 with
      | nil => exact ⟨',', s2 ++ (rest ++ ']' :: post), rfl, by decide⟩
      | cons c t2 =>
        exact ⟨c, t2 ++ ',' :: (s2 ++ (rest ++ ']' :: post)), rfl,
          ws_not_digit c (hs1 c (List.mem_cons_self _ _))⟩
    obtain ⟨x, t, hxt, hx⟩ := hhead
    obtain ⟨n, hn⟩ := parseDigits_run d x t hd hx
    rw [← hxt] at hn
    refine ⟨n, s1 ++ ',' :: (s2 ++ (rest ++ ']' :: post)), by rw [hfull]; exact hn,
      ?_, ?_⟩
    · obtain ⟨hne, _⟩ := hd
      cases d with
      | nil => exact absurd rfl hne
      | cons c t3 => simp [List.length_append]; omega
    · intro acc fuel hfuel
      have hlen1 : 0 < (s1 ++ ',' :: (s2 ++ (rest ++ ']' :: post))).length := by
        simp [List.length_append]
      cases fuel with
      | zero => omega
      | succ f =>
        have hnb : ∀ tail, s1 ++ ',' :: (s2 ++ (rest ++ ']' :: post))
            = ']' :: tail → False := by
          intro tail htail
          cases s1 with
          | nil =>
            injection htail with h1 _
            exact absurd h1 (by decide)
          | cons c t2 =>
            injection htail with h1 _
            exact ws_ne_rbracket c (hs1 c (List.mem_cons_self _ _)) h1
        obtain ⟨c2, t2, hrest2, hc2⟩ := bracketBody_head hrest
        have hdu : dropWs (s2 ++ (rest ++ ']' :: post)) = rest ++ ']' :: post := by
          rw [hrest2]
          exact dropWs_run s2 c2 (t2 ++ ']' :: post) hs2 (digit_not_ws c2 hc2)
        obtain ⟨n2, rem2, hp2, hlen2, htail2⟩ := ih post
        have hflen : rem2.length ≤ f := by
          simp [List.length_append] at hfuel hlen2 ⊢
          omega
        obtain ⟨l, hl⟩ := htail2 (n2 :: acc) f hflen
        refine ⟨l, ?_⟩
        rw [matchArrayTailF.eq_3 acc _ f hnb,
          dropWs_run s1 ',' (s2 ++ (rest ++ ']' :: post)) hs1 (by decide)]
        split
        · rename_i r2 heq
          injection heq with _ h2
          rw [← h2, hdu, hp2]
          exact hl
        · rename_i hno
          exact absurd rfl (hno (s2 ++ (rest ++ ']' :: post)))

theorem matchArrayAt_of_body {body : List Char} (h : BracketBody body)
    (post : List Char) :
    ∃ l, matchArrayAt ('[' :: (body ++ ']' :: post)) = some l := by
  obtain ⟨n, rem, hp, _, htail⟩ := bracketBody_parse h post
  obtain ⟨l, hl⟩ := htail [n] rem.length (le_refl _)
  refine ⟨l, ?_⟩
  simp only [matchArrayAt, hp, matchArrayTail]
  exact hl

theorem scanArray_some_of {cs : List Char} (h : ContainsIntArrayLiteral cs) :
    (scanArray cs).isSome := by
  obtain ⟨pre, body, post, hb, he⟩ := h
  apply scanFor_isSome_of matchArrayAt rfl cs pre.length
  rw [he, List.drop_left]
  obtain ⟨l, hl⟩ := matchArrayAt_of_body hb post
  rw [hl]
  rfl

theorem containsLiteral_of_scanArray {cs : List Char} {l : List Nat}
    (h : scanArray cs = some l) : ContainsIntArrayLiteral cs := by
  obtain ⟨i, hi, _⟩ := scanFor_decomp matchArrayAt cs l h
  obtain ⟨body, post, hb, he⟩ := matchArrayAt_decomp hi
  refine ⟨cs.take i, body, post, hb, ?_⟩
  conv_lhs => rw [← List.take_append_drop i cs]
  rw [he]

theorem extractArrayFromCode_isSome_iff (cs : List Char) :
    (extractArrayFromCode cs).isSome ↔ ContainsIntArrayLiteral cs := by
  constructor
  · intro h
    match h2 : scanArray cs with
    | some l => exact containsLiteral_of_scanArray h2
    | none => rw [extractArrayFromCode, h2] at h; cases h
  · intro h
    have h2 := scanArray_some_of h
    match h3 : scanArray cs with
    | some l => rw [extractArrayFromCode, h3]; rfl
    | none => rw [h3] at h2; cases h2

theorem extractArrayFromCodeServer_isSome_iff (lines : List (List Char)) :
    (extractArrayFromCodeServer lines).isSome ↔
      ∃ line ∈ lines, ContainsIntArrayLiteral line := by
  induction lines with
  | nil => simp [extractArrayFromCodeServer]
  | cons line rest ih =>
    constructor
    · intro h
      simp only [extractArrayFromCodeServer] at h
      match h2 : scanArray line with
      | some l =>
        exact ⟨line, List.mem_cons_self _ _, containsLiteral_of_scanArray h2⟩
      | none =>
        rw [h2] at h
        obtain ⟨l2, hm, hc⟩ := ih.mp h
        exact ⟨l2, List.mem_cons_of_mem _ hm, hc⟩
    · intro ⟨l2, hm, hc⟩
      simp only [extractArrayFromCodeServer]
      match h2 : scanArray line with
      | some l => simp
      | none =>
        rcases List.mem_cons.mp hm with heq | hm2
        · subst heq
          have := scanArray_some_of hc
          rw [h2] at this
          cases this
        · show (extractArrayFromCodeServer rest).isSome = true
          exact ih.mpr ⟨l2, hm2, hc⟩

/-- C10: the array-extraction helpers (client whole-text scan and server
line-by-line scan) return an extracted array precisely when the source text
contains a bracketed comma-separated list of non-negative decimal integer
literals; sources without one, including arrays written with negative numbers
or non-integer tokens, yield none, and the sorting and searching generators
then fall back to their fixed default arrays. -/
theorem array_extraction_iff :
    (∀ cs, (extractArrayFromCode cs).isSome ↔ ContainsIntArrayLiteral cs) ∧
    (∀ lines, (extractArrayFromCodeServer lines).isSome ↔
      ∃ line ∈ lines, ContainsIntArrayLiteral line) ∧
    extractArrayFromCode (String.toList "const a = [-1, 2];") = none ∧
    extractArrayFromCode (String.toList "const a = [1.5, 2];") = none ∧
    (∀ cs, extractArrayFromCode cs = none →
      clientSortingArray cs = defaultSortArray ∧
      clientSearchArray cs = defaultSearchArray) ∧
    (∀ lines, extractArrayFromCodeServer lines = none →
      serverSortArray lines none = defaultSortArray) := by
  refine ⟨extractArrayFromCode_isSome_iff, extractArrayFromCodeServer_isSome_iff,
    by decide, by decide, ?_, ?_⟩
  · intro cs h
    exact ⟨by rw [clientSortingArray, h]; rfl, by rw [clientSearchArray, h]; rfl⟩
  · intro lines h
    rw [serverSortArray, h]
    rfl

theorem array_extraction_iff_witness :
    ContainsIntArrayLiteral (String.toList "quickSort([3, 1, 2])") ∧
    clientSortingArray (String.toList "let x = 1;") = defaultSortArray :=
  ⟨(array_extraction_iff.1 (String.toList "quickSort([3, 1, 2])")).mp (by decide),
   ((array_extraction_iff.2.2.2.2.1 (String.toList "let x = 1;")) (by decide)).1⟩

end DSAHelper
